import Mathlib

/-!
Verification development for the monomial-algebra core of the RootFinding
repository (file CHEBYSHEV/cheb_utils.py).

The Python code is shallowly embedded: exponent tuples become `List Nat`
(Python tuples of non-negative ints), NumPy integer arrays become `List Nat`
or `List Int`, Python dicts become insertion-ordered association lists, and
in-place mutation is modelled by state passing (the function result is the
mutated array).  Floating point coefficient rows are modelled over `ℚ`:
the operations verified here only select, move and zero entries, never
perform rounding arithmetic.
-/

namespace ChebUtils

/-! ### Term ordering (class Term, cheb_utils.py lines 13-57) -/

/-- The order tags accepted by Term.lt (the Python strings 'grevlex',
'lexographic' (sic) and 'grlex'). -/
inductive MonOrder where
  | grevlex : MonOrder
  | lexographic : MonOrder
  | grlex : MonOrder
deriving DecidableEq

/-- The grevlex tie-break loop of Term.lt: iterate over the two REVERSED
exponent tuples in lockstep (Python zip stops at the shorter one); at the
first differing pair return False when self's entry is smaller, True when it
is larger; if the loop finishes, return False. -/
def revTie : List Nat → List Nat → Bool
  | i :: is, j :: js => if i < j then false else if j < i then true else revTie is js
  | _, _ => false

/-- The forward tie-break loop shared by the 'lexographic' and 'grlex'
branches of Term.lt: first differing pair decides, smaller entry means
smaller term. -/
def fwdTie : List Nat → List Nat → Bool
  | i :: is, j :: js => if i < j then true else if j < i then false else fwdTie is js
  | _, _ => false

/-- Term.lt (Term.__lt__, lines 23-57): compare two exponent tuples under
the selected order.  Default order is grevlex: total degree first, ties
broken by the reversed scan of `revTie`. -/
def Term_lt (a b : List Nat) (order : MonOrder := .grevlex) : Bool :=
  match order with
  | .grevlex =>
      if a.sum < b.sum then true
      else if b.sum < a.sum then false
      else revTie a.reverse b.reverse
  | .lexographic => fwdTie a b
  | .grlex =>
      if a.sum < b.sum then true
      else if b.sum < a.sum then false
      else fwdTie a b

/-- A Term object: the class Term stores `val`, the exponent tuple.  The
class defines no `__eq__` method, so Python compares Term objects by object
identity; the identity of a distinct heap object is modelled by the `oid`
token. -/
structure TermObj where
  oid : Nat
  val : List Nat
deriving DecidableEq

/-- Python `a == b` on two Term objects: Term defines no `__eq__`, so the
default `object.__eq__` applies, which is object identity. -/
def TermObj.pyEq (a b : TermObj) : Bool := a.oid = b.oid

/-! ### clean_zeros_from_matrix (lines 102-117) -/

/-- clean_zeros_from_matrix: set every entry of the array that lies strictly
between `-accuracy` and `accuracy` to 0 and return the (mutated) array.
The NumPy boolean-mask assignment `array[(array < accuracy) & (array > -accuracy)] = 0`
acts elementwise, so the array is modelled as a flat list of its entries and
the in-place mutation as state passing; the Python float `1.e-10` default is
modelled by the rational it denotes. -/
def clean_zeros_from_matrix (array : List ℚ) (accuracy : ℚ := 1 / 10 ^ 10) : List ℚ :=
  array.map (fun x => if x < accuracy ∧ -accuracy < x then 0 else x)

/-! ### Combinatorics (num_mons, mon_combosHighest, get_var_list,
mons_ordered, mons_1D; lines 199-242, 360-374, 517-522, 664-688) -/

/-- num_mons (lines 360-374): `comb(deg+dim-1, deg, exact=True)`.  The
subtraction is truncated at zero; the only argument pair where the Python
value (0, from `comb(-1, 0)`) differs is `deg = dim = 0`, which no caller
and no claim touches. -/
def num_mons (deg dim : Nat) : Nat := Nat.choose (deg + dim - 1) deg

/-- get_var_list (lines 199-207): the unit exponent tuples
`[e_0, ..., e_(dim-1)]`, each of length dim. -/
def get_var_list (dim : Nat) : List (List Nat) :=
  (List.range dim).map (fun i => (List.replicate dim 0).set i 1)

/-- mon_combosHighest (lines 209-242): all exponent tuples obtained from
`mon` by distributing `numLeft` over the positions from `spot` on; the
Python code mutates `mon` in place and recurses with `spot+1`.  The final
`else []` arm covers argument shapes (`spot + 1 > len(mon)`) on which the
Python code would raise an IndexError; it is never reached from the
program's calls, which always start at `spot = 0` with `len(mon) ≥ 1`. -/
def mon_combosHighest (mon : List Nat) (numLeft : Nat) (spot : Nat := 0) :
    List (List Nat) :=
  if mon.length = spot + 1 then [mon.set spot numLeft]
  else if numLeft = 0 then [mon]
  else if h : spot + 1 < mon.length then
    (List.range (numLeft + 1)).flatMap
      (fun i => mon_combosHighest (mon.set spot i) (numLeft - i) (spot + 1))
  else []
termination_by mon.length - spot
decreasing_by simp only [List.length_set]; omega

/-- mons_ordered (lines 517-522): concatenation of the exact-degree
monomial blocks for degrees 0..deg, each in mon_combosHighest emission
order. -/
def mons_ordered (dim deg : Nat) : List (List Nat) :=
  (List.range (deg + 1)).flatMap (fun i => mon_combosHighest (List.replicate dim 0) i)

/-- mons_1D (lines 664-688): the pure powers `k·e_var` of the single
variable `var` for k = 2..deg (each row is `[0]*dim` with position `var`
set to k). -/
def mons_1D (dim deg var : Nat) : List (List Nat) :=
  (List.range' 2 (deg - 1)).map (fun i => (List.replicate dim 0).set var i)

/-! ### A structured view of mon_combosHighest

`monsH k n` is the list of exponent tuples of length `k+1` summing to `n`,
in exactly the emission order of `mon_combosHighest` (proved below): the
first coordinate ranges over 0..n and the remainder is distributed over the
suffix recursively. -/

/-- Structured recursion equal to `mon_combosHighest ([0]*(k+1)) n 0`. -/
def monsH : Nat → Nat → List (List Nat)
  | 0, n => [[n]]
  | k + 1, n =>
      (List.range (n + 1)).flatMap (fun i => (monsH k (n - i)).map (i :: ·))

/-- Increment the first coordinate of an exponent tuple. -/
def incHead : List Nat → List Nat
  | [] => []
  | x :: t => (x + 1) :: t

/-- Decrement coordinate `i` of an exponent tuple (the exponent tuple of the
quotient by the variable `x_i`). -/
def decVar (i : Nat) (m : List Nat) : List Nat := m.set i (m.getD i 0 - 1)

/-! ### Permutation arrays (inverse_P, arrays, permutation_array;
lines 278-299, 410-473) -/

/-- NumPy scatter assignment `base[idxs[t]] = vals[t]` for t = 0, 1, ...:
later writes win, out-of-range indices are impossible in the program's
calls (Lean's `List.set` ignores them). -/
def scatterSet (base : List Nat) (pairs : List (Nat × Nat)) : List Nat :=
  pairs.foldl (fun acc p => acc.set p.1 p.2) base

/-- inverse_P (lines 278-299): `inverse[P] = arange(len(P))`, the scatter
that sends value `P[t]` to position `t`; `np.empty_like` is modelled by a
zero base, which the scatter overwrites completely whenever `P` is a
permutation of `0..len(P)-1` (the only way the program calls it). -/
def inverse_P (P : List Nat) : List Nat :=
  scatterSet (List.replicate P.length 0) (P.zip (List.range P.length))

/-- `np.where(mask)[0]`: the positions (ascending) at which the boolean
mask is True. -/
def npWhere (mask : List Bool) : List Nat :=
  (List.range mask.length).filter (fun k => mask.getD k false)

/-- `np.where(~mask)[0]`: the positions at which the mask is False. -/
def npWhereNot (mask : List Bool) : List Nat :=
  (List.range mask.length).filter (fun k => ! mask.getD k false)

/-- arrays (lines 410-439): the recursive boolean mask used to build a
permutation array.  `mon` encodes the variable being multiplied by
(`mon = dim-1-i` for tuple coordinate `i`).  The two final guard arms cover
argument shapes (`deg = 0` with `dim-1 ≠ mon`, or `dim = 0`) on which the
Python recursion would not terminate or would index out of range; they are
never reached from the program's calls, which have `1 ≤ deg`
and `mon ≤ dim - 1`. -/
def arrays (deg dim mon : Nat) : List Bool :=
  if dim - 1 = mon then
    List.replicate (num_mons deg dim - num_mons deg (dim - 1)) true ++
      List.replicate (num_mons deg (dim - 1)) false
  else if deg = 1 then
    (List.replicate dim false).set (dim - mon - 1) true
  else if 1 ≤ deg ∧ 1 ≤ dim then
    arrays (deg - 1) dim mon ++ arrays deg (dim - 1) mon
  else []
termination_by deg + dim
decreasing_by all_goals omega

/-- permutation_array (lines 441-473): build the boolean mask over the
full (reversed ordered) monomial list degree by degree, then turn it into a
permutation array via `inverse_P(hstack(where(~array), where(array)))`. -/
def permutation_array (deg dim mon : Nat) : List Nat :=
  let array :=
    if mon = dim - 1 then
      (List.range' 1 deg).foldl (fun acc d => arrays d dim mon ++ acc) [false]
    else
      let first0 := (List.replicate dim false).set (dim - mon - 1) true
      let fa := (List.range' 2 (deg - 1)).foldl
        (fun (p : List Bool × List Bool) d =>
          let first := p.1 ++ arrays d (dim - 1) mon
          (first, first ++ p.2))
        (first0, first0 ++ [false])
      fa.2
  inverse_P (npWhereNot array ++ npWhere array)

/-! ### Permutation dictionaries (all_permutations, cheb_perturbation2/3,
all_permutations_cheb; lines 475-515, 524-662) -/

/-- A Python tuple of non-negative ints used as a dict key (Python ints are
signed, so keys live in `List Int`). -/
def toKey (m : List Nat) : List Int := m.map Int.ofNat

/-- `tuple(np.subtract(mon, var))`: the coordinate-wise difference as signed
integers (it can be negative, in which case it is never a key). -/
def subKey (mon var : List Nat) : List Int :=
  List.zipWith (fun (a : Nat) (b : Nat) => (a : Int) - (b : Int)) mon var

/-- Python dict membership `k in d` over the association-list model. -/
def hasKey {V : Type _} (d : List (List Int × V)) (k : List Int) : Bool :=
  d.any (fun kv => decide (kv.1 = k))

/-- Python dict write `d[k] = v`: overwrite in place when the key exists,
append at the end otherwise (insertion order preserved). -/
def dinsert {V : Type _} (d : List (List Int × V)) (k : List Int) (v : V) :
    List (List Int × V) :=
  if hasKey d k then d.map (fun kv => if kv.1 = k then (k, v) else kv)
  else d ++ [(k, v)]

/-- Python dict read `d[k]` as an Option (None models a KeyError). -/
def dlookup {V : Type _} (d : List (List Int × V)) (k : List Int) : Option V :=
  (d.find? (fun kv => decide (kv.1 = k))).map (fun kv => kv.2)

/-- NumPy fancy indexing `a[b]` for index arrays. -/
def gather (a b : List Nat) : List Nat := b.map (fun k => a.getD k 0)

/-- The initial dictionary of all_permutations (lines 496-503, the
`permutations is None` branch of a fresh call): the zero monomial maps to
`np.arange(N)` and each unit monomial `e_i` to
`permutation_array(matrixDegree, dim, dim-1-i)`. -/
def apInit (dim matrixDegree : Nat) : List (List Int × List Nat) :=
  (List.range dim).foldl
    (fun d i => dinsert d (toKey ((List.replicate dim 0).set i 1))
      (permutation_array matrixDegree dim (dim - 1 - i)))
    [(toKey (List.replicate dim 0),
      List.range (((List.range (matrixDegree + 1)).map
        (fun deg => num_mons deg dim)).sum))]

/-- One iteration of the monomial loop of all_permutations (lines 509-514):
scan the variable list for the first `var` whose difference `mon - var` is
already a key, and on success store `permutations[var][permutations[diff]]`;
when no variable qualifies the monomial is silently skipped.  The `.getD []`
defaults model dict reads that cannot fail here: `var` is a key from the
initial dictionary and `diff` passed the membership test. -/
def apStep (dim : Nat) (perms : List (List Int × List Nat)) (mon : List Nat) :
    List (List Int × List Nat) :=
  match (get_var_list dim).find? (fun var => hasKey perms (subKey mon var)) with
  | some var =>
      dinsert perms (toKey mon)
        (gather ((dlookup perms (toKey var)).getD [])
          ((dlookup perms (subKey mon var)).getD []))
  | none => perms

/-- The monomials processed by the degree loop of all_permutations for a
fresh call (current_degree = 2): the exact-degree blocks for d = 2..deg in
emission order. -/
def monomialList (dim deg : Nat) : List (List Nat) :=
  (List.range' 2 (deg - 1)).flatMap (fun d => mon_combosHighest (List.replicate dim 0) d)

/-- all_permutations (lines 475-515) for a fresh call
(permutations = None, current_degree = 2). -/
def all_permutations (deg dim matrixDegree : Nat) : List (List Int × List Nat) :=
  (monomialList dim deg).foldl (apStep dim) (apInit dim matrixDegree)

/-- The shared loop body of cheb_perturbation2 and cheb_perturbation3
(lines 550-557 and 584-591): look up the row index of the monomial (an
uncaught KeyError, modelled by `none`, if it is missing), then record it at
the index of the absolute difference `|monomial - mult_mon|`; a missing
difference is caught (`except KeyError: pass`) and contributes nothing, but
a present difference whose stored index is out of range for `perturb` is an
uncaught IndexError at `perturb[idx2] = idx`, modelled by `none`. -/
def chebStep (mult_mon : List Int) (mon_dict : List (List Int × Nat))
    (perturb : List Nat) (monomial : List Int) : Option (List Nat) :=
  match dlookup mon_dict monomial with
  | none => none
  | some idx =>
      match dlookup mon_dict (List.zipWith (fun a b => |a - b|) monomial mult_mon) with
      | some idx2 =>
          if idx2 < perturb.length then some (perturb.set idx2 idx) else none
      | none => some perturb

/-- cheb_perturbation2 (lines 561-596): fold-back correction map over the
monomials whose `var` exponent is at least the multiplier's.  The column
read `mons[:, var]` and the tuple read `mult_mon[var]` are uncaught
IndexErrors (modelled by `none`) when `var` is out of range. -/
def cheb_perturbation2 (mult_mon : List Int) (mons : List (List Int))
    (mon_dict : List (List Int × Nat)) (var : Nat) : Option (List Nat) :=
  if mons.all (fun m => decide (var < m.length)) && decide (var < mult_mon.length) then
    (mons.filter (fun m => decide (mult_mon.getD var 0 ≤ m.getD var 0))).foldlM
      (chebStep mult_mon mon_dict) (List.replicate mon_dict.length 0)
  else none

/-- cheb_perturbation3 (lines 524-559): boundary correction map over the
monomials whose `var` exponent is strictly less than the multiplier's, with
the same out-of-range `var` behaviour as cheb_perturbation2. -/
def cheb_perturbation3 (mult_mon : List Int) (mons : List (List Int))
    (mon_dict : List (List Int × Nat)) (var : Nat) : Option (List Nat) :=
  if mons.all (fun m => decide (var < m.length)) && decide (var < mult_mon.length) then
    (mons.filter (fun m => decide (m.getD var 0 < mult_mon.getD var 0))).foldlM
      (chebStep mult_mon mon_dict) (List.replicate mon_dict.length 0)
  else none

/-- The row-index dictionary of all_permutations_cheb (lines 620-622):
monomials of the reversed ordered list, keyed to 0, 1, 2, ... -/
def chebMonDict (dim matrixDegree : Nat) : List (List Int × Nat) :=
  (((mons_ordered dim matrixDegree).reverse).zip
      (List.range (mons_ordered dim matrixDegree).length)).foldl
    (fun d ij => dinsert d (toKey ij.1) ij.2) []

/-- The single-variable block of all_permutations_cheb (lines 623-634): for
variable i store the triple (P, P_inv with its top `num_in_top` entries
zeroed, P2 with P's values kept only at the reversed positions of the
monomials whose i-th exponent is exactly 1). -/
def chebSingle (dim matrixDegree : Nat) (d : List (List Int × (List Nat × List Nat × List Nat)))
    (i : Nat) : List (List Int × (List Nat × List Nat × List Nat)) :=
  let mons := mons_ordered dim matrixDegree
  let P := permutation_array matrixDegree dim (dim - 1 - i)
  let P_inv := inverse_P P
  let A := (List.range mons.length).filter
    (fun k => decide ((mons.getD k []).getD i 0 = 1))
  let P2 := A.foldl
    (fun p a => p.set (P.length - 1 - a) (P.getD (P.length - 1 - a) 0))
    (List.replicate P.length 0)
  let P_inv2 := (List.range P_inv.length).map
    (fun j => if j < num_mons matrixDegree dim + num_mons (matrixDegree - 1) dim
      then 0 else P_inv.getD j 0)
  dinsert d (toKey ((List.replicate dim 0).set i 1)) (P, P_inv2, P2)

/-- The body of the pure-power loop of all_permutations_cheb (lines
641-659): if the single-variable decrement of `calcMon` (the source's loop
variable `calc`, renamed because `calc` is reserved in Lean) is already a
key, compose the primary permutations and recompute the two correction maps
from cheb_perturbation2/3; otherwise skip.  The `.getD` defaults model dict
reads that cannot fail for the arguments this function receives: `mon` and
`diff` are keys when read.  The dead local `num_in_top` of the source
(all its uses are commented out) is omitted. -/
def chebPow (dim matrixDegree i : Nat) (mons2 : List (List Nat))
    (mon_dict : List (List Int × Nat))
    (d2 : List (List Int × (List Nat × List Nat × List Nat))) (calcMon : List Nat) :
    List (List Int × (List Nat × List Nat × List Nat)) :=
  let mon := (List.replicate dim 0).set i 1
  let diff := subKey calcMon mon
  if hasKey d2 diff then
    let P := gather (((dlookup d2 (toKey mon)).getD ([], [], [])).1)
      (((dlookup d2 diff).getD ([], [], [])).1)
    let P_inv := (cheb_perturbation2 (toKey calcMon) (mons2.map toKey) mon_dict i).getD []
    let P2 := (cheb_perturbation3 (toKey calcMon) (mons2.map toKey) mon_dict i).getD []
    dinsert d2 (toKey calcMon) (P, P_inv, P2)
  else d2

/-- all_permutations_cheb (lines 598-662): the single-variable block for
each variable, then, for each variable, the pure powers x_i^2..x_i^deg in
increasing order.  The unused `current_degree` parameter of the source is
kept. -/
def all_permutations_cheb (deg dim matrixDegree : Nat) (current_degree : Nat := 2) :
    List (List Int × (List Nat × List Nat × List Nat)) :=
  let mon_dict := chebMonDict dim matrixDegree
  let base := (List.range dim).foldl (chebSingle dim matrixDegree) []
  let mons2 := mons_ordered dim (matrixDegree - 1)
  (List.range dim).foldl
    (fun d i => (mons_1D dim deg i).foldl (chebPow dim matrixDegree i mons2 mon_dict) d)
    base

theorem monsH_zero_right (k : Nat) : monsH k 0 = [List.replicate (k + 1) 0] := by
  induction k with
  | zero => rfl
  | succ k ih => simp [monsH, ih, List.replicate_succ, List.range_succ]

/-- Bridge between the faithful embedding and the structured recursion:
running mon_combosHighest from position `spot = pre.length` on a list whose
tail of length `k+1` is all zeros produces the structured lists prefixed by
`pre`. -/
theorem mon_combosHighest_eq (k : Nat) :
    ∀ (n : Nat) (pre : List Nat),
      mon_combosHighest (pre ++ List.replicate (k + 1) 0) n pre.length =
        (monsH k n).map (pre ++ ·) := by
  induction k with
  | zero =>
      intro n pre
      rw [mon_combosHighest]
      simp [monsH, List.replicate_succ, List.set_append_right]
  | succ k ih =>
      intro n pre
      rw [mon_combosHighest]
      have hlen : (pre ++ List.replicate (k + 2) 0).length = pre.length + (k + 2) := by
        simp
      simp only [hlen]
      rw [if_neg (by omega)]
      by_cases hn : n = 0
      · subst hn
        simp [monsH_zero_right]
      · rw [if_neg hn, dif_pos (by omega)]
        have hset : ∀ i : Nat,
            (pre ++ List.replicate (k + 2) 0).set pre.length i =
              (pre ++ [i]) ++ List.replicate (k + 1) 0 := by
          intro i
          rw [List.set_append_right _ _ (Nat.le_refl _)]
          simp [List.replicate_succ]
        have hfg : (fun i => mon_combosHighest
              ((pre ++ List.replicate (k + 2) 0).set pre.length i) (n - i) (pre.length + 1))
            = (fun i => ((monsH k (n - i)).map (i :: ·)).map (pre ++ ·)) := by
          funext i
          rw [hset i]
          have hpl : (pre ++ [i]).length = pre.length + 1 := by simp
          rw [← hpl, ih (n - i) (pre ++ [i])]
          simp [List.map_map, Function.comp, List.append_assoc]
        rw [hfg]
        simp [monsH, List.map_flatMap]

theorem mon_combosHighest_zero_spine (dim n : Nat) (hdim : 1 ≤ dim) :
    mon_combosHighest (List.replicate dim 0) n 0 = monsH (dim - 1) n := by
  obtain ⟨k, rfl⟩ : ∃ k, dim = k + 1 := ⟨dim - 1, by omega⟩
  have := mon_combosHighest_eq k n []
  simpa using this

/-- The degree-graded split of a monomial block: the tuples of degree `n+1`
in `k+2` variables are the tuples with first coordinate 0 (in the order of
the `k+1`-variable block of degree `n+1`) followed by the tuples with first
coordinate ≥ 1 (the degree-`n` block with its first coordinate bumped). -/
theorem monsH_split (k n : Nat) :
    monsH (k + 1) (n + 1) =
      ((monsH k (n + 1)).map (0 :: ·)) ++ ((monsH (k + 1) n).map incHead) := by
  rw [monsH, List.range_succ_eq_map, List.flatMap_cons, List.flatMap_map]
  congr 1
  rw [monsH, List.map_flatMap]
  apply congrArg
  funext i
  have h1 : n + 1 - Nat.succ i = n - i := by omega
  rw [h1, List.map_map]
  rfl

theorem num_mons_pascal (n k : Nat) :
    num_mons (n + 1) (k + 1) + num_mons n (k + 1 + 1) = num_mons (n + 1) (k + 1 + 1) := by
  simp only [num_mons]
  have h1 : n + 1 + (k + 1) - 1 = n + k + 1 := by omega
  have h2 : n + (k + 1 + 1) - 1 = n + k + 1 := by omega
  have h3 : n + 1 + (k + 1 + 1) - 1 = n + k + 1 + 1 := by omega
  rw [h1, h2, h3]
  have hp := Nat.choose_succ_succ' (n + k + 1) n
  omega

theorem monsH_length (k n : Nat) : (monsH k n).length = num_mons n (k + 1) := by
  induction k generalizing n with
  | zero =>
      simp [monsH, num_mons]
  | succ k ih =>
      induction n with
      | zero => simp [monsH_zero_right, num_mons]
      | succ n ihn =>
          rw [monsH_split]
          simp only [List.length_append, List.length_map, ih, ihn]
          exact num_mons_pascal n k

theorem mem_monsH {k n : Nat} {m : List Nat} :
    m ∈ monsH k n ↔ m.length = k + 1 ∧ m.sum = n := by
  induction k generalizing n m with
  | zero =>
      constructor
      · rintro h
        simp only [monsH, List.mem_singleton] at h
        subst h; simp
      · rintro ⟨hl, hs⟩
        match m, hl with
        | [x], _ => simp only [List.sum_cons, List.sum_nil, Nat.add_zero] at hs
                    simp [monsH, hs]
  | succ k ih =>
      constructor
      · intro h
        simp only [monsH, List.mem_flatMap, List.mem_range, List.mem_map] at h
        obtain ⟨i, hi, t, ht, rfl⟩ := h
        obtain ⟨htl, hts⟩ := ih.mp ht
        constructor
        · simp [htl]
        · simp only [List.sum_cons, hts]
          omega
      · rintro ⟨hl, hs⟩
        match m, hl with
        | x :: t, hl =>
            simp only [List.length_cons, Nat.add_right_cancel_iff] at hl
            simp only [List.sum_cons] at hs
            simp only [monsH, List.mem_flatMap, List.mem_range, List.mem_map]
            exact ⟨x, by omega, t, ih.mpr ⟨hl, by omega⟩, rfl⟩

theorem monsH_nodup (k n : Nat) : (monsH k n).Nodup := by
  induction k generalizing n with
  | zero => simp [monsH]
  | succ k ih =>
      rw [monsH, List.nodup_flatMap]
      constructor
      · intro i _
        exact List.Nodup.map (fun a b h => by injection h) (ih (n - i))
      · have hne : List.Pairwise (· ≠ ·) (List.range (n + 1)) :=
          (List.pairwise_lt_range _).imp (fun h => Nat.ne_of_lt h)
        refine hne.imp ?_
        intro a b hab x hxa hxb
        simp only [List.mem_map] at hxa hxb
        obtain ⟨t, _, rfl⟩ := hxa
        obtain ⟨t', _, h⟩ := hxb
        exact hab (by injection h.symm)

/-- Pointwise congruence for flatMap restricted to members. -/
theorem flatMap_congr_mem {α β : Type _} {l : List α} {f g : α → List β}
    (h : ∀ a ∈ l, f a = g a) : l.flatMap f = l.flatMap g := by
  induction l with
  | nil => rfl
  | cons x xs ih =>
      rw [List.flatMap_cons, List.flatMap_cons, h x (by simp),
        ih (fun a ha => h a (by simp [ha]))]

theorem getD_replicate_zero (k i : Nat) : (List.replicate k (0 : Nat)).getD i 0 = 0 := by
  induction k generalizing i with
  | zero => simp
  | succ k ih =>
      cases i with
      | zero => simp [List.replicate_succ]
      | succ i => simp [List.replicate_succ, ih i]

/-- Filtering a degree-`n` block to the monomials divisible by `x_i` and
dividing by `x_i` yields exactly the degree-`n-1` block, in order. -/
theorem monsH_filter_dec (k : Nat) :
    ∀ n i, i ≤ k → 1 ≤ n →
      ((monsH k n).filter (fun m => decide (1 ≤ m.getD i 0))).map (decVar i)
        = monsH k (n - 1) := by
  induction k with
  | zero =>
      intro n i hi hn
      have hi0 : i = 0 := by omega
      subst hi0
      match n, hn with
      | (n + 1), _ =>
          simp [monsH, decVar, List.getD_cons_zero]
  | succ k ih =>
      intro n i hi hn
      match n, hn with
      | (n + 1), _ =>
      simp only [Nat.add_sub_cancel]
      rw [monsH, monsH, List.filter_flatMap, List.map_flatMap]
      match i with
      | 0 =>
          -- the first-coordinate-zero segment is filtered away; the rest shift down
          rw [List.range_succ_eq_map, List.flatMap_cons, List.flatMap_map]
          have hz : (((monsH k (n + 1 - 0)).map (0 :: ·)).filter
              (fun m => decide (1 ≤ m.getD 0 0))).map (decVar 0) = [] := by
            rw [List.filter_map]
            simp [Function.comp, List.getD_cons_zero]
          rw [hz, List.nil_append]
          apply congrArg
          funext j
          rw [List.filter_map]
          have hp : ((fun m => decide (1 ≤ m.getD 0 0)) ∘ ((Nat.succ j) :: ·)) =
              (fun _ => true) := by
            funext t; simp [Function.comp, List.getD_cons_zero]
          rw [hp, List.filter_true, List.map_map]
          have h1 : n + 1 - Nat.succ j = n - j := by omega
          rw [h1]
          have hfun : (decVar 0 ∘ ((Nat.succ j) :: · : List Nat → List Nat)) = (j :: ·) := by
            funext t
            simp [Function.comp, decVar, List.getD_cons_zero]
          rw [hfun]
      | (i + 1) =>
          -- push the filter and the decrement under each cons segment
          rw [List.range_succ, List.flatMap_append, List.flatMap_cons, List.flatMap_nil]
          have hi' : i ≤ k := by omega
          have hlast : (((monsH k (n + 1 - (n + 1))).map ((n + 1) :: ·)).filter
              (fun m => decide (1 ≤ m.getD (i + 1) 0))).map (decVar (i + 1)) = [] := by
            simp only [Nat.sub_self, monsH_zero_right]
            simp [List.getD_cons_succ, getD_replicate_zero]
          rw [hlast]
          simp only [List.append_nil, List.nil_append]
          refine flatMap_congr_mem ?_
          intro j hj
          rw [List.mem_range] at hj
          rw [List.filter_map]
          have hp : ((fun m => decide (1 ≤ m.getD (i + 1) 0)) ∘ (j :: ·)) =
              (fun t => decide (1 ≤ t.getD i 0)) := by
            funext t; simp [Function.comp, List.getD_cons_succ]
          rw [hp, List.map_map]
          have hdec : (decVar (i + 1) ∘ (j :: ·)) = ((j :: ·) ∘ decVar i) := by
            funext t
            simp [Function.comp, decVar, List.getD_cons_succ, List.set]
          rw [hdec, ← List.map_map, ih (n + 1 - j) i hi' (by omega)]
          have h1 : n + 1 - j - 1 = n - j := by omega
          rw [h1]

/-! ### Properties of the grevlex tie-break loop -/

theorem revTie_irrefl (x : List Nat) : revTie x x = false := by
  induction x with
  | nil => rfl
  | cons i is ih => simp [revTie, ih]

theorem revTie_iff : ∀ (x y : List Nat), x.length = y.length →
    (revTie x y = true ↔ ∃ k, k < x.length ∧
      (∀ j, j < k → x.getD j 0 = y.getD j 0) ∧ y.getD k 0 < x.getD k 0)
  | [], [] => by
      intro _
      constructor
      · intro h; exact Bool.noConfusion h
      · rintro ⟨k, hk, -, -⟩; simp at hk
  | [], y :: ys => by intro h; simp at h
  | x :: xs, [] => by intro h; simp at h
  | i :: is, j :: js => by
      intro hlen
      have hlen' : is.length = js.length := by simpa using hlen
      have ih := revTie_iff is js hlen'
      rw [revTie]
      by_cases hij : i < j
      · rw [if_pos hij]
        constructor
        · intro h; exact Bool.noConfusion h
        · rintro ⟨k, hk, hpre, hgt⟩
          exfalso
          match k with
          | 0 =>
              rw [List.getD_cons_zero, List.getD_cons_zero] at hgt
              omega
          | k + 1 =>
              have h0 := hpre 0 (by omega)
              rw [List.getD_cons_zero, List.getD_cons_zero] at h0
              omega
      · rw [if_neg hij]
        by_cases hji : j < i
        · rw [if_pos hji]
          simp only [true_iff]
          refine ⟨0, by simp, fun j hj => by omega, ?_⟩
          rw [List.getD_cons_zero, List.getD_cons_zero]
          exact hji
        · rw [if_neg hji]
          have hii : i = j := by omega
          subst hii
          rw [ih]
          constructor
          · rintro ⟨k, hk, hpre, hgt⟩
            refine ⟨k + 1, by simp only [List.length_cons]; omega, ?_, ?_⟩
            · intro j hj
              match j with
              | 0 => rw [List.getD_cons_zero, List.getD_cons_zero]
              | j + 1 =>
                  rw [List.getD_cons_succ, List.getD_cons_succ]
                  exact hpre j (by omega)
            · rw [List.getD_cons_succ, List.getD_cons_succ]
              exact hgt
          · rintro ⟨k, hk, hpre, hgt⟩
            match k with
            | 0 =>
                rw [List.getD_cons_zero, List.getD_cons_zero] at hgt
                omega
            | k + 1 =>
                rw [List.getD_cons_succ, List.getD_cons_succ] at hgt
                refine ⟨k, by simp only [List.length_cons] at hk; omega, ?_, hgt⟩
                intro j hj
                have h0 := hpre (j + 1) (by omega)
                rw [List.getD_cons_succ, List.getD_cons_succ] at h0
                exact h0

theorem revTie_trans : ∀ (x y z : List Nat), x.length = y.length → y.length = z.length →
    revTie x y = true → revTie y z = true → revTie x z = true
  | [], y, z => by
      intro _ _ hxy _
      cases y <;> exact Bool.noConfusion hxy
  | x :: xs, [], z => by intro h _ _ _; simp at h
  | x :: xs, y :: ys, [] => by intro _ h _ _; simp at h
  | i :: is, j :: js, l :: ls => by
      intro hxy hyz hxyt hyzt
      have hxy' : is.length = js.length := by simpa using hxy
      have hyz' : js.length = ls.length := by simpa using hyz
      rw [revTie] at hxyt hyzt ⊢
      by_cases h1 : i < j
      · rw [if_pos h1] at hxyt
        exact absurd hxyt (by simp)
      · rw [if_neg h1] at hxyt
        by_cases h2 : j < l
        · rw [if_pos h2] at hyzt
          exact absurd hyzt (by simp)
        · rw [if_neg h2] at hyzt
          rw [if_neg (show ¬ i < l by omega)]
          by_cases h4 : l < i
          · rw [if_pos h4]
          · rw [if_neg h4]
            have hij : i = j := by omega
            have hjl : j = l := by omega
            subst hij
            subst hjl
            rw [if_neg (by omega)] at hxyt hyzt
            exact revTie_trans is js ls hxy' hyz' hxyt hyzt

theorem revTie_asymm (x : List Nat) : ∀ y : List Nat, revTie x y = true → revTie y x = false := by
  induction x with
  | nil =>
      intro y h
      cases y <;> exact Bool.noConfusion h
  | cons i is ih =>
      intro y h
      cases y with
      | nil => exact Bool.noConfusion h
      | cons j js =>
          rw [revTie] at h ⊢
          by_cases h1 : i < j
          · rw [if_pos h1] at h
            exact absurd h (by simp)
          · rw [if_neg h1] at h
            by_cases h2 : j < i
            · rw [if_pos h2]
            · rw [if_neg h2] at h
              rw [if_neg h2, if_neg h1]
              exact ih js h

theorem revTie_total (x : List Nat) : ∀ y : List Nat, x.length = y.length →
    revTie x y = false → revTie y x = false → x = y := by
  induction x with
  | nil =>
      intro y hlen _ _
      cases y with
      | nil => rfl
      | cons j js => simp at hlen
  | cons i is ih =>
      intro y hlen h1 h2
      cases y with
      | nil => simp at hlen
      | cons j js =>
          have hlen' : is.length = js.length := by simpa using hlen
          rw [revTie] at h1 h2
          by_cases hij : i < j
          · rw [if_neg (show ¬ j < i by omega), if_pos hij] at h2
            exact absurd h2 (by simp)
          · by_cases hji : j < i
            · rw [if_neg hij, if_pos hji] at h1
              exact absurd h1 (by simp)
            · have hii : i = j := by omega
              subst hii
              simp only [if_neg hij, if_neg hji] at h1 h2
              exact congrArg (i :: ·) (ih js hlen' h1 h2)

/-- Unfolded form of the grevlex branch of Term.lt. -/
theorem Term_lt_grevlex_iff (a b : List Nat) :
    Term_lt a b = true ↔
      a.sum < b.sum ∨ (a.sum = b.sum ∧ revTie a.reverse b.reverse = true) := by
  rw [Term_lt]
  by_cases h1 : a.sum < b.sum
  · rw [if_pos h1]
    simp [h1]
  · rw [if_neg h1]
    by_cases h2 : b.sum < a.sum
    · rw [if_pos h2]
      constructor
      · intro h; exact absurd h (by simp)
      · intro h
        rcases h with h | ⟨he, -⟩ <;> omega
    · rw [if_neg h2]
      have he : a.sum = b.sum := by omega
      constructor
      · intro h; exact Or.inr ⟨he, h⟩
      · intro h
        rcases h with h | ⟨-, ht⟩
        · omega
        · exact ht

/-! ### Claim theorems: ordering, combinatorics, equality, zero-cleaning -/

/-- C5: for equal-length exponent tuples, the default (grevlex) Term
less-than returns True exactly when either the total degree of `a` is
smaller, or the degrees tie and at the first position where the two tuples
differ, scanning from the last position backward, `a`'s exponent is strictly
greater than `b`'s; identical tuples compare False. -/
theorem C5_grevlex_lt_characterization (a b : List Nat) (hlen : a.length = b.length) :
    (Term_lt a b = true ↔
      (a.sum < b.sum ∨ (a.sum = b.sum ∧ ∃ k, k < a.length ∧
        (∀ j, j < k → a.reverse.getD j 0 = b.reverse.getD j 0) ∧
        b.reverse.getD k 0 < a.reverse.getD k 0))) ∧
    (a = b → Term_lt a b = false) := by
  constructor
  · rw [Term_lt_grevlex_iff]
    have hrl : a.reverse.length = b.reverse.length := by simpa using hlen
    rw [revTie_iff a.reverse b.reverse hrl]
    simp only [List.length_reverse]
  · rintro rfl
    rw [Bool.eq_false_iff]
    intro hx
    rw [Term_lt_grevlex_iff] at hx
    rcases hx with h | ⟨-, ht⟩
    · omega
    · rw [revTie_irrefl] at ht
      exact Bool.noConfusion ht

/-- C5 witness: concrete instance a = (1,2,0), b = (0,2,1): equal degree,
first difference from the end is at reversed position 0 where b's entry 1
exceeds a's 0, so the characterization makes a < b hold. -/
theorem C5_grevlex_lt_characterization_witness :
    (Term_lt [1, 2, 0] [0, 2, 1] = true ↔
      (([1, 2, 0] : List Nat).sum < ([0, 2, 1] : List Nat).sum ∨
        (([1, 2, 0] : List Nat).sum = ([0, 2, 1] : List Nat).sum ∧ ∃ k,
          k < ([1, 2, 0] : List Nat).length ∧
          (∀ j, j < k →
            ([1, 2, 0] : List Nat).reverse.getD j 0 =
              ([0, 2, 1] : List Nat).reverse.getD j 0) ∧
          ([0, 2, 1] : List Nat).reverse.getD k 0 <
            ([1, 2, 0] : List Nat).reverse.getD k 0))) ∧
    (([1, 2, 0] : List Nat) = [0, 2, 1] → Term_lt [1, 2, 0] [0, 2, 1] = false) :=
  C5_grevlex_lt_characterization [1, 2, 0] [0, 2, 1] (by decide)

/-- C6: on equal-length exponent tuples the default (grevlex) Term
less-than is a strict total order: irreflexive, transitive, any two tuples
are comparable or equal, and the relation excludes equality and its own
converse (so exactly one of a<b, a=b, b<a holds). -/
theorem C6_grevlex_strict_total_order (a b c : List Nat)
    (hab : a.length = b.length) (hbc : b.length = c.length) :
    Term_lt a a = false ∧
    (Term_lt a b = true → Term_lt b c = true → Term_lt a c = true) ∧
    (Term_lt a b = true ∨ a = b ∨ Term_lt b a = true) ∧
    (Term_lt a b = true → a ≠ b) ∧
    (Term_lt a b = true → Term_lt b a = false) := by
  have hrab : a.reverse.length = b.reverse.length := by simpa using hab
  have hrbc : b.reverse.length = c.reverse.length := by simpa using hbc
  refine ⟨?_, ?_, ?_, ?_, ?_⟩
  · rw [Bool.eq_false_iff]
    intro hx
    rw [Term_lt_grevlex_iff] at hx
    rcases hx with h | ⟨-, ht⟩
    · omega
    · rw [revTie_irrefl] at ht
      exact Bool.noConfusion ht
  · rw [Term_lt_grevlex_iff, Term_lt_grevlex_iff, Term_lt_grevlex_iff]
    rintro (h1 | ⟨he1, ht1⟩) (h2 | ⟨he2, ht2⟩)
    · exact Or.inl (by omega)
    · exact Or.inl (by omega)
    · exact Or.inl (by omega)
    · exact Or.inr ⟨by omega, revTie_trans _ _ _ hrab hrbc ht1 ht2⟩
  · by_cases h1 : Term_lt a b = true
    · exact Or.inl h1
    · by_cases h2 : Term_lt b a = true
      · exact Or.inr (Or.inr h2)
      · refine Or.inr (Or.inl ?_)
        rw [Term_lt_grevlex_iff] at h1 h2
        have he : a.sum = b.sum := by
          rcases Nat.lt_trichotomy a.sum b.sum with h | h | h
          · exact absurd (Or.inl h) h1
          · exact h
          · exact absurd (Or.inl h) h2
        have hta : revTie a.reverse b.reverse = false := by
          by_contra hx
          exact h1 (Or.inr ⟨he, by simpa using hx⟩)
        have htb : revTie b.reverse a.reverse = false := by
          by_contra hx
          exact h2 (Or.inr ⟨he.symm, by simpa using hx⟩)
        have hr := revTie_total a.reverse b.reverse hrab hta htb
        simpa using congrArg List.reverse hr
  · intro h1
    rintro rfl
    rw [Term_lt_grevlex_iff] at h1
    rcases h1 with h | ⟨-, ht⟩
    · omega
    · rw [revTie_irrefl] at ht
      exact Bool.noConfusion ht
  · intro h1
    rw [Term_lt_grevlex_iff] at h1
    by_contra hx
    have hx' : Term_lt b a = true := by
      cases hb : Term_lt b a
      · exact absurd hb hx
      · rfl
    rw [Term_lt_grevlex_iff] at hx'
    rcases h1 with h | ⟨he, ht⟩ <;> rcases hx' with h' | ⟨he', ht'⟩
    · omega
    · omega
    · omega
    · rw [revTie_asymm a.reverse b.reverse ht] at ht'
      exact Bool.noConfusion ht'

/-- C6 witness: the strict-total-order properties instantiated at the
concrete equal-length tuples (1,0), (0,1), (0,2). -/
theorem C6_grevlex_strict_total_order_witness :
    Term_lt [1, 0] [1, 0] = false ∧
    (Term_lt [1, 0] [0, 1] = true → Term_lt [0, 1] [0, 2] = true →
      Term_lt [1, 0] [0, 2] = true) ∧
    (Term_lt [1, 0] [0, 1] = true ∨ ([1, 0] : List Nat) = [0, 1] ∨
      Term_lt [0, 1] [1, 0] = true) ∧
    (Term_lt [1, 0] [0, 1] = true → ([1, 0] : List Nat) ≠ [0, 1]) ∧
    (Term_lt [1, 0] [0, 1] = true → Term_lt [0, 1] [1, 0] = false) :=
  C6_grevlex_strict_total_order [1, 0] [0, 1] [0, 2] (by decide) (by decide)

/-- C7: for every dim ≥ 1 and d ≥ 0, mon_combosHighest on a zero list of
length dim with budget d returns exactly the dim-tuples of non-negative
integers summing to d, each once, and their number is
num_mons d dim = C(d + dim - 1, d); concretely num_mons 2 3 = 6. -/
theorem C7_mon_combosHighest_count (dim d : Nat) (hdim : 1 ≤ dim) :
    ((mon_combosHighest (List.replicate dim 0) d).length = num_mons d dim) ∧
    (mon_combosHighest (List.replicate dim 0) d).Nodup ∧
    (∀ m, m ∈ mon_combosHighest (List.replicate dim 0) d ↔
      m.length = dim ∧ m.sum = d) ∧
    num_mons 2 3 = 6 := by
  have hs := mon_combosHighest_zero_spine dim d hdim
  have hd1 : dim - 1 + 1 = dim := by omega
  refine ⟨?_, ?_, ?_, by decide⟩
  · rw [hs, monsH_length, hd1]
  · rw [hs]
    exact monsH_nodup _ _
  · intro m
    rw [hs, mem_monsH, hd1]

/-- C7 witness: the counting and enumeration properties instantiated at
dim = 3, d = 2 (six monomials of degree 2 in three variables). -/
theorem C7_mon_combosHighest_count_witness :
    ((mon_combosHighest (List.replicate 3 0) 2).length = num_mons 2 3) ∧
    (mon_combosHighest (List.replicate 3 0) 2).Nodup ∧
    (∀ m, m ∈ mon_combosHighest (List.replicate 3 0) 2 ↔
      m.length = 3 ∧ m.sum = 2) ∧
    num_mons 2 3 = 6 :=
  C7_mon_combosHighest_count 3 2 (by decide)

/-- C9: the claim says Term equality is exponent-wise.  The code defines no
`__eq__` on Term, so Python falls back to object identity: two distinct
Term objects carrying the same exponent tuple (1,2) compare unequal even
though their `val` tuples are equal — the code contradicts the spec's
"equality is exponent-wise equality" and its own strict-total-order test
property. -/
theorem C9_term_eq_is_object_identity :
    TermObj.pyEq ⟨0, [1, 2]⟩ ⟨1, [1, 2]⟩ = false ∧
      (⟨0, [1, 2]⟩ : TermObj).val = (⟨1, [1, 2]⟩ : TermObj).val := by
  exact ⟨rfl, rfl⟩

/-- C10: clean_zeros_from_matrix with tolerance tol > 0 returns the array of
the same shape in which exactly the entries strictly between -tol and tol
are zeroed and all other entries (including those with absolute value
exactly tol) are unchanged; in-place mutation and returning the same array
are modelled by state passing. -/
theorem C10_clean_zeros_from_matrix (a : List ℚ) (tol : ℚ) (htol : 0 < tol) :
    (clean_zeros_from_matrix a tol).length = a.length ∧
    ∀ j, j < a.length →
      (((-tol < a.getD j 0 ∧ a.getD j 0 < tol) →
          (clean_zeros_from_matrix a tol).getD j 0 = 0) ∧
       (¬ (-tol < a.getD j 0 ∧ a.getD j 0 < tol) →
          (clean_zeros_from_matrix a tol).getD j 0 = a.getD j 0)) := by
  refine ⟨by simp [clean_zeros_from_matrix], ?_⟩
  intro j hj
  have hj2 : j < (clean_zeros_from_matrix a tol).length := by
    simpa [clean_zeros_from_matrix] using hj
  have hga : a.getD j 0 = a[j] := List.getD_eq_getElem a 0 hj
  have hget : (clean_zeros_from_matrix a tol).getD j 0 =
      (if a[j] < tol ∧ -tol < a[j] then 0 else a[j]) := by
    rw [List.getD_eq_getElem _ 0 hj2]
    simp [clean_zeros_from_matrix]
  constructor
  · intro hcond
    rw [hga] at hcond
    rw [hget, if_pos ⟨hcond.2, hcond.1⟩]
  · intro hcond
    rw [hga] at hcond ⊢
    rw [hget, if_neg (fun hc => hcond ⟨hc.2, hc.1⟩)]

/-- C10 witness: concrete instance with tol = 1 and the row
(1/2, -1, 2): only the entry 1/2 is zeroed. -/
theorem C10_clean_zeros_from_matrix_witness :
    (clean_zeros_from_matrix [1/2, -1, 2] 1).length = ([1/2, -1, 2] : List ℚ).length ∧
    ∀ j, j < ([1/2, -1, 2] : List ℚ).length →
      (((-1 < ([1/2, -1, 2] : List ℚ).getD j 0 ∧ ([1/2, -1, 2] : List ℚ).getD j 0 < 1) →
          (clean_zeros_from_matrix [1/2, -1, 2] 1).getD j 0 = 0) ∧
       (¬ (-1 < ([1/2, -1, 2] : List ℚ).getD j 0 ∧ ([1/2, -1, 2] : List ℚ).getD j 0 < 1) →
          (clean_zeros_from_matrix [1/2, -1, 2] 1).getD j 0 =
            ([1/2, -1, 2] : List ℚ).getD j 0)) :=
  C10_clean_zeros_from_matrix [1/2, -1, 2] 1 (by norm_num)

/-! ### Scatter writes, inverse_P and np.where -/

theorem scatterSet_cons (base : List Nat) (q : Nat × Nat) (qs : List (Nat × Nat)) :
    scatterSet base (q :: qs) = scatterSet (base.set q.1 q.2) qs := rfl

theorem scatterSet_length (ps : List (Nat × Nat)) :
    ∀ base : List Nat, (scatterSet base ps).length = base.length := by
  induction ps with
  | nil => intro base; rfl
  | cons q qs ih =>
      intro base
      rw [scatterSet_cons, ih, List.length_set]

theorem getD_set_ne (l : List Nat) (i j : Nat) (a d : Nat) (hij : i ≠ j) :
    (l.set i a).getD j d = l.getD j d := by
  by_cases hj : j < l.length
  · rw [List.getD_eq_getElem _ _ (by simpa using hj), List.getD_eq_getElem _ _ hj]
    exact List.getElem_set_ne hij _
  · rw [List.getD_eq_default _ _ (by simpa using Nat.le_of_not_lt hj),
      List.getD_eq_default _ _ (Nat.le_of_not_lt hj)]

theorem scatterSet_getD_notin (ps : List (Nat × Nat)) :
    ∀ (base : List Nat) (j d : Nat), (∀ p ∈ ps, p.1 ≠ j) →
      (scatterSet base ps).getD j d = base.getD j d := by
  induction ps with
  | nil => intro base j d _; rfl
  | cons q qs ih =>
      intro base j d h
      rw [scatterSet_cons, ih _ _ _ (fun p hp => h p (by simp [hp]))]
      exact getD_set_ne _ _ _ _ _ (h q (by simp))

theorem scatterSet_getD (ps : List (Nat × Nat)) :
    ∀ (base : List Nat) (j k : Nat), (j, k) ∈ ps →
      (∀ p ∈ ps, p.1 = j → p = (j, k)) → j < base.length →
      (scatterSet base ps).getD j 0 = k := by
  induction ps with
  | nil => intro base j k h _ _; simp at h
  | cons q qs ih =>
      intro base j k hmem huniq hj
      rw [scatterSet_cons]
      by_cases hq : (j, k) ∈ qs
      · exact ih _ _ _ hq (fun p hp => huniq p (by simp [hp])) (by simpa using hj)
      · have hqjk : q = (j, k) := by
          rcases List.mem_cons.mp hmem with h | h
          · exact h.symm
          · exact absurd h hq
        subst hqjk
        have hnot : ∀ p ∈ qs, p.1 ≠ j := by
          intro p hp hpj
          have := huniq p (by simp [hp]) hpj
          exact hq (this ▸ hp)
        rw [scatterSet_getD_notin qs _ _ _ hnot]
        have hjl : j < (base.set j k).length := by simpa using hj
        rw [List.getD_eq_getElem _ _ hjl]
        exact List.getElem_set_self hjl

theorem inverse_P_length (Q : List Nat) : (inverse_P Q).length = Q.length := by
  rw [inverse_P, scatterSet_length, List.length_replicate]

theorem inverse_P_getD {Q : List Nat} (hnd : Q.Nodup)
    (hvals : ∀ v ∈ Q, v < Q.length) (t : Nat) (ht : t < Q.length) :
    (inverse_P Q).getD (Q[t]) 0 = t := by
  have hzlen : (Q.zip (List.range Q.length)).length = Q.length := by
    simp [List.length_zip]
  apply scatterSet_getD
  · rw [List.mem_iff_getElem]
    refine ⟨t, by omega, ?_⟩
    rw [List.getElem_zip]
    simp
  · rintro ⟨a, b⟩ hp hfst
    rw [List.mem_iff_getElem] at hp
    obtain ⟨s, hs, heq⟩ := hp
    rw [List.getElem_zip] at heq
    have hsl : s < Q.length := by omega
    have ha : Q[s] = a := by
      have := congrArg Prod.fst heq
      simpa using this
    have hb : s = b := by
      have := congrArg Prod.snd heq
      simpa using this
    simp only at hfst
    have hst : s = t := by
      rw [← hnd.getElem_inj_iff]
      rw [ha, hfst]
    subst hst
    rw [← ha, ← hb]
  · rw [List.length_replicate]
    exact hvals _ (List.getElem_mem ht)

theorem inverse_P_perm {Q : List Nat} (hQ : Q.Perm (List.range Q.length)) :
    (inverse_P Q).Perm (List.range Q.length) := by
  have hnd : Q.Nodup := hQ.nodup_iff.mpr (List.nodup_range _)
  have hvals : ∀ v ∈ Q, v < Q.length := by
    intro v hv
    have := hQ.subset hv
    simpa using this
  have hsub : List.range Q.length ⊆ inverse_P Q := by
    intro v hv
    rw [List.mem_range] at hv
    have hQv : Q[v] < Q.length := hvals _ (List.getElem_mem hv)
    have hspec := inverse_P_getD hnd hvals v hv
    have hlen : Q[v] < (inverse_P Q).length := by rw [inverse_P_length]; exact hQv
    rw [List.getD_eq_getElem _ _ hlen] at hspec
    rw [← hspec]
    exact List.getElem_mem hlen
  have hsp := List.subperm_of_subset (List.nodup_range _) hsub
  refine (hsp.perm_of_length_le ?_).symm
  rw [inverse_P_length, List.length_range]

theorem npWhereNot_eq (M : List Bool) :
    npWhereNot M = npWhere (M.map (fun b => !b)) := by
  rw [npWhereNot, npWhere, List.length_map]
  refine List.filter_congr ?_
  intro k hk
  rw [List.mem_range] at hk
  have hk2 : k < (M.map (fun b => !b)).length := by simpa using hk
  rw [List.getD_eq_getElem _ _ hk2, List.getElem_map, List.getD_eq_getElem _ _ hk]

theorem whereNot_append_where_perm (M : List Bool) :
    (npWhereNot M ++ npWhere M).Perm (List.range M.length) := by
  have h := List.filter_append_perm (fun k => ! M.getD k false) (List.range M.length)
  have h2 : (List.range M.length).filter (fun x => !! M.getD x false) = npWhere M := by
    rw [npWhere]
    exact List.filter_congr (fun x _ => by rw [Bool.not_not])
  rw [h2] at h
  exact h

/-- Positions at which a mapped mask is true, read back through the list,
give exactly the filtered list. -/
theorem npWhere_map_getD {α : Type _} (L : List α) (p : α → Bool) (d : α) :
    (npWhere (L.map p)).map (fun k => L.getD k d) = L.filter p := by
  induction L with
  | nil => rfl
  | cons x xs ih =>
      have hw : npWhere ((x :: xs).map p) =
          (if p x then [0] else []) ++ (npWhere (xs.map p)).map Nat.succ := by
        rw [npWhere, List.map_cons, List.length_cons, List.length_map,
          List.range_succ_eq_map, List.filter_cons]
        have hzero : ((p x :: xs.map p).getD 0 false) = p x := List.getD_cons_zero
        rw [List.filter_map]
        have hcong : ((List.range xs.length).filter
            ((fun k => (p x :: xs.map p).getD k false) ∘ Nat.succ)) =
            npWhere (xs.map p) := by
          rw [npWhere, List.length_map]
          refine List.filter_congr ?_
          intro k _
          simp [Function.comp, List.getD_cons_succ]
        rw [hcong, hzero]
        by_cases hpx : p x
        · rw [if_pos hpx, if_pos hpx, List.singleton_append]
        · rw [if_neg hpx, if_neg hpx, List.nil_append]
      rw [hw, List.map_append, List.map_map, List.filter_cons]
      have hsucc : ((fun k => (x :: xs).getD k d) ∘ Nat.succ) = (fun k => xs.getD k d) := by
        funext k
        simp [Function.comp, List.getD_cons_succ]
      rw [hsucc, ih]
      by_cases hpx : p x
      · rw [if_pos hpx, if_pos hpx]
        simp [List.getD_cons_zero]
      · rw [if_neg hpx, if_neg hpx, List.map_nil, List.nil_append]

/-! ### The boolean mask built by arrays / permutation_array marks exactly
the monomials divisible by the selected variable, over the reversed ordered
monomial list. -/

theorem getD_incHead_pos (m : List Nat) (i : Nat) (hi : 1 ≤ i) :
    (incHead m).getD i 0 = m.getD i 0 := by
  match m with
  | [] => rfl
  | x :: t =>
      match i, hi with
      | i + 1, _ => rw [incHead, List.getD_cons_succ, List.getD_cons_succ]

theorem mask_deg_one (k : Nat) :
    ∀ i, i ≤ k →
      ((monsH k 1).reverse).map (fun m => decide (1 ≤ m.getD i 0)) =
        (List.replicate (k + 1) false).set i true := by
  induction k with
  | zero =>
      intro i hi
      have hi0 : i = 0 := by omega
      subst hi0
      rfl
  | succ k ih =>
      intro i hi
      have hsplit : monsH (k + 1) 1 =
          ((monsH k 1).map (0 :: ·)) ++ [1 :: List.replicate (k + 1) 0] := by
        rw [monsH_split k 0, monsH_zero_right]
        rfl
      rw [hsplit, List.reverse_append, List.reverse_singleton, List.singleton_append,
        List.map_cons, ← List.map_reverse, List.map_map]
      match i with
      | 0 =>
          have h1 : decide (1 ≤ (1 :: List.replicate (k + 1) 0).getD 0 0) = true := by
            rw [List.getD_cons_zero]
            decide
          have h2 : ((fun m => decide (1 ≤ m.getD 0 0)) ∘ ((0 : Nat) :: ·)) =
              (fun _ => false) := by
            funext t
            simp [Function.comp, List.getD_cons_zero]
          rw [h1, h2, List.map_const', List.length_reverse, monsH_length]
          have hn : num_mons 1 (k + 1) = k + 1 := by
            rw [num_mons]
            have h3 : 1 + (k + 1) - 1 = k + 1 := by omega
            rw [h3, Nat.choose_one_right]
          rw [hn]
          simp [List.replicate_succ]
      | j + 1 =>
          have hjk : j ≤ k := by omega
          have h1 : decide (1 ≤ (1 :: List.replicate (k + 1) 0).getD (j + 1) 0) = false := by
            rw [List.getD_cons_succ, getD_replicate_zero]
            decide
          have h2 : ((fun m => decide (1 ≤ m.getD (j + 1) 0)) ∘ ((0 : Nat) :: ·)) =
              (fun m => decide (1 ≤ m.getD j 0)) := by
            funext t
            simp [Function.comp, List.getD_cons_succ]
          rw [h1, h2, ih j hjk]
          simp [List.replicate_succ, List.set_cons_succ]

theorem mask_var_zero (k : Nat) :
    ∀ d, 1 ≤ d →
      ((monsH k d).reverse).map (fun m => decide (1 ≤ m.getD 0 0)) =
        List.replicate (num_mons d (k + 1) - num_mons d k) true ++
          List.replicate (num_mons d k) false := by
  induction k with
  | zero =>
      intro d hd
      have h1 : num_mons d 1 = 1 := by
        rw [num_mons]
        have : d + 1 - 1 = d := by omega
        rw [this, Nat.choose_self]
      have h0 : num_mons d 0 = 0 := by
        rw [num_mons]
        exact Nat.choose_eq_zero_of_lt (by omega)
      have hdec : decide (1 ≤ d) = true := decide_eq_true hd
      rw [h1, h0]
      simp [monsH, List.getD_cons_zero, hdec]
  | succ k ih =>
      intro d hd
      obtain ⟨n, rfl⟩ : ∃ n, d = n + 1 := ⟨d - 1, by omega⟩
      rw [monsH_split k n, List.reverse_append, List.map_append]
      have hA : (((monsH (k + 1) n).map incHead).reverse).map
          (fun m => decide (1 ≤ m.getD 0 0)) =
          List.replicate (num_mons (n + 1) (k + 1 + 1) - num_mons (n + 1) (k + 1)) true := by
        rw [← List.map_reverse, List.map_map]
        have hmem : ∀ m ∈ (monsH (k + 1) n).reverse,
            ((fun m => decide (1 ≤ m.getD 0 0)) ∘ incHead) m = (fun _ => true) m := by
          intro m hm
          rw [List.mem_reverse] at hm
          obtain ⟨hlen, -⟩ := mem_monsH.mp hm
          match m, hlen with
          | x :: t, _ => simp [Function.comp, incHead, List.getD_cons_zero]
        rw [List.map_congr_left hmem, List.map_const', List.length_reverse, monsH_length]
        have hp := num_mons_pascal n k
        have heq : num_mons n (k + 1 + 1) =
            num_mons (n + 1) (k + 1 + 1) - num_mons (n + 1) (k + 1) := by
          omega
        rw [← heq]
      have hB : (((monsH k (n + 1)).map (0 :: ·)).reverse).map
          (fun m => decide (1 ≤ m.getD 0 0)) =
          List.replicate (num_mons (n + 1) (k + 1)) false := by
        rw [← List.map_reverse, List.map_map]
        have h2 : ((fun m => decide (1 ≤ m.getD 0 0)) ∘ ((0 : Nat) :: ·)) =
            (fun _ => false) := by
          funext t
          simp [Function.comp, List.getD_cons_zero]
        rw [h2, List.map_const', List.length_reverse, monsH_length]
      rw [hA, hB]

/-- The arrays mask (lines 410-439) over the reversed degree-`deg` block:
position-for-position, it is True exactly at the monomials divisible by the
variable with tuple coordinate `dim - 1 - mon`. -/
theorem arrays_mask : ∀ dim deg mon, 1 ≤ dim → 1 ≤ deg → mon ≤ dim - 1 →
    arrays deg dim mon = ((monsH (dim - 1) deg).reverse).map
      (fun m => decide (1 ≤ m.getD (dim - 1 - mon) 0)) := by
  intro dim
  induction dim with
  | zero =>
      intro deg mon h1 _ _
      exact absurd h1 (by omega)
  | succ k ihdim =>
      intro deg
      induction deg with
      | zero =>
          intro mon _ h2 _
          exact absurd h2 (by omega)
      | succ d ihdeg =>
          intro mon _ _ hmon
          rw [arrays]
          simp only [Nat.add_sub_cancel]
          by_cases hbr : k = mon
          · rw [if_pos hbr]
            subst hbr
            rw [Nat.sub_self]
            exact (mask_var_zero k (d + 1) (by omega)).symm
          · rw [if_neg hbr]
            have hmk : mon < k := by omega
            by_cases hd1 : d + 1 = 1
            · rw [if_pos hd1]
              have hd0 : d = 0 := by omega
              subst hd0
              have hidx : k + 1 - mon - 1 = k - mon := by omega
              rw [hidx]
              exact (mask_deg_one k (k - mon) (by omega)).symm
            · rw [if_neg hd1, if_pos (by omega : 1 ≤ d + 1 ∧ 1 ≤ k + 1)]
              have hd2 : 1 ≤ d := by omega
              obtain ⟨p, rfl⟩ : ∃ p, k = p + 1 := ⟨k - 1, by omega⟩
              rw [monsH_split p d, List.reverse_append, List.map_append]
              congr 1
              · rw [← List.map_reverse, List.map_map]
                have hfA : ((fun m => decide (1 ≤ m.getD (p + 1 - mon) 0)) ∘ incHead) =
                    (fun m => decide (1 ≤ m.getD (p + 1 - mon) 0)) := by
                  funext m
                  simp only [Function.comp_apply]
                  rw [getD_incHead_pos m (p + 1 - mon) (by omega)]
                rw [hfA]
                have hA := ihdeg mon (by omega) (by omega) (by omega)
                simpa using hA
              · rw [← List.map_reverse, List.map_map]
                have hfB : ((fun m => decide (1 ≤ m.getD (p + 1 - mon) 0)) ∘
                    ((0 : Nat) :: ·)) = (fun m => decide (1 ≤ m.getD (p - mon) 0)) := by
                  funext t
                  simp only [Function.comp_apply]
                  have hix : p + 1 - mon = (p - mon) + 1 := by omega
                  rw [hix, List.getD_cons_succ]
                rw [hfB]
                have hB := ihdim (d + 1) mon (by omega) (by omega) (by omega)
                simpa using hB

/-! ### permutation_array builds the divisibility mask over the reversed
ordered monomial list, then inverts the stable partition. -/

theorem fold_prepend (f : Nat → List Bool) :
    ∀ (t s : Nat) (acc : List Bool),
      (List.range' s t).foldl (fun acc d => f d ++ acc) acc =
        ((List.range' s t).reverse).flatMap f ++ acc := by
  intro t
  induction t with
  | zero => intro s acc; rfl
  | succ t ih =>
      intro s acc
      rw [List.range'_succ, List.foldl_cons, ih (s + 1) (f s ++ acc), List.reverse_cons,
        List.flatMap_append, List.flatMap_cons, List.flatMap_nil, List.append_nil,
        List.append_assoc]

theorem fold_pair (dim mon : Nat) (hmon : dim - 1 ≠ mon) :
    ∀ (t s : Nat) (acc : List Bool), 1 ≤ s → 1 ≤ dim →
      (List.range' (s + 1) t).foldl
        (fun (p : List Bool × List Bool) d =>
          (p.1 ++ arrays d (dim - 1) mon, p.1 ++ arrays d (dim - 1) mon ++ p.2))
        (arrays s dim mon, acc) =
      (arrays (s + t) dim mon,
        ((List.range' (s + 1) t).reverse).flatMap (fun d => arrays d dim mon) ++ acc) := by
  intro t
  induction t with
  | zero => intro s acc _ _; rfl
  | succ t ih =>
      intro s acc hs hdim
      rw [List.range'_succ, List.foldl_cons]
      have harr : arrays s dim mon ++ arrays (s + 1) (dim - 1) mon =
          arrays (s + 1) dim mon := by
        conv_rhs => rw [arrays]
        rw [if_neg hmon, if_neg (by omega : ¬ s + 1 = 1),
          if_pos (⟨by omega, hdim⟩ : 1 ≤ s + 1 ∧ 1 ≤ dim)]
        simp only [Nat.add_sub_cancel]
      simp only [harr]
      rw [ih (s + 1) (arrays (s + 1) dim mon ++ acc) (by omega) hdim]
      have h1 : s + 1 + t = s + (t + 1) := by omega
      rw [h1]
      have h2 : (((s + 1) :: List.range' (s + 1 + 1) t).reverse).flatMap
            (fun d => arrays d dim mon) ++ acc =
          ((List.range' (s + 1 + 1) t).reverse).flatMap (fun d => arrays d dim mon) ++
            (arrays (s + 1) dim mon ++ acc) := by
        rw [List.reverse_cons, List.flatMap_append, List.flatMap_cons,
          List.flatMap_nil, List.append_nil, List.append_assoc]
      rw [h2]

/-- Both branches of permutation_array build the same boolean mask:
the degree blocks deg, deg-1, ..., 1 of `arrays`, then the degree-0 entry
False. -/
theorem permutation_array_concat (deg dim mon : Nat) (hdeg : 1 ≤ deg) (hdim : 1 ≤ dim)
    (hmon : mon ≤ dim - 1) :
    permutation_array deg dim mon =
      inverse_P (npWhereNot
          (((List.range' 1 deg).reverse).flatMap (fun d => arrays d dim mon) ++ [false]) ++
        npWhere
          (((List.range' 1 deg).reverse).flatMap (fun d => arrays d dim mon) ++ [false])) := by
  rw [permutation_array]
  by_cases hbr : mon = dim - 1
  · rw [if_pos hbr, fold_prepend (fun d => arrays d dim mon) deg 1 [false]]
  · rw [if_neg hbr]
    have harr1 : (List.replicate dim false).set (dim - mon - 1) true =
        arrays 1 dim mon := by
      conv_rhs => rw [arrays]
      rw [if_neg (fun h => hbr h.symm), if_pos rfl]
    simp only [harr1]
    obtain ⟨t, rfl⟩ : ∃ t, deg = t + 1 := ⟨deg - 1, by omega⟩
    have hfold := fold_pair dim mon (fun h => hbr h.symm) (t + 1 - 1) 1
      (arrays 1 dim mon ++ [false]) (by omega) hdim
    simp only [Nat.add_sub_cancel] at hfold ⊢
    rw [hfold]
    have h2 : ((List.range' 2 t).reverse).flatMap (fun d => arrays d dim mon) ++
        (arrays 1 dim mon ++ [false]) =
        ((List.range' 1 (t + 1)).reverse).flatMap (fun d => arrays d dim mon) ++ [false] := by
      rw [List.range'_succ, List.reverse_cons, List.flatMap_append, List.flatMap_cons,
        List.flatMap_nil, List.append_nil, List.append_assoc]
    rw [h2]

/-- The concatenated mask equals, entry by entry, the divisibility test for
the variable with coordinate `dim-1-mon` over the reversed ordered monomial
list. -/
theorem maskConcat_eq (deg dim mon : Nat) (hdeg : 1 ≤ deg) (hdim : 1 ≤ dim)
    (hmon : mon ≤ dim - 1) :
    ((List.range' 1 deg).reverse).flatMap (fun d => arrays d dim mon) ++ [false] =
      ((mons_ordered dim deg).reverse).map
        (fun m => decide (1 ≤ m.getD (dim - 1 - mon) 0)) := by
  have hblocks : mons_ordered dim deg =
      (List.range (deg + 1)).flatMap (fun i => monsH (dim - 1) i) := by
    rw [mons_ordered]
    exact flatMap_congr_mem (fun i _ => mon_combosHighest_zero_spine dim i hdim)
  rw [hblocks, List.reverse_flatMap, List.map_flatMap]
  have hrange : (List.range (deg + 1)).reverse =
      (List.range' 1 deg).reverse ++ [0] := by
    rw [List.range_eq_range', List.range'_succ, List.reverse_cons]
  rw [hrange, List.flatMap_append, List.flatMap_cons, List.flatMap_nil, List.append_nil]
  congr 1
  · refine flatMap_congr_mem ?_
    intro d hd
    rw [List.mem_reverse, List.mem_range'_1] at hd
    exact arrays_mask dim d mon hdim (by omega) hmon
  · simp only [Function.comp]
    rw [monsH_zero_right]
    have hdd : dim - 1 + 1 = dim := by omega
    rw [hdd]
    simp [getD_replicate_zero]

theorem mons_ordered_length (dim deg : Nat) (hdim : 1 ≤ dim) :
    (mons_ordered dim deg).length =
      ((List.range (deg + 1)).map (fun k => num_mons k dim)).sum := by
  rw [mons_ordered, List.length_flatMap]
  congr 1
  refine List.map_congr_left ?_
  intro i _
  simp only [Function.comp]
  rw [mon_combosHighest_zero_spine dim i hdim, monsH_length]
  have hdd : dim - 1 + 1 = dim := by omega
  rw [hdd]

/-! ### Block structure of the ordered monomial list -/

theorem mons_ordered_succ (dim D : Nat) :
    mons_ordered dim (D + 1) =
      mons_ordered dim D ++ mon_combosHighest (List.replicate dim 0) (D + 1) := by
  rw [mons_ordered, mons_ordered, List.range_succ, List.flatMap_append,
    List.flatMap_cons, List.flatMap_nil, List.append_nil]

theorem mons_ordered_zero (dim : Nat) (hdim : 1 ≤ dim) :
    mons_ordered dim 0 = [List.replicate dim 0] := by
  rw [mons_ordered]
  have h1 : List.range 1 = [0] := rfl
  rw [h1, List.flatMap_cons, List.flatMap_nil, List.append_nil,
    mon_combosHighest_zero_spine dim 0 hdim, monsH_zero_right]
  have hdd : dim - 1 + 1 = dim := by omega
  rw [hdd]

theorem block_length (dim D : Nat) (hdim : 1 ≤ dim) :
    (mon_combosHighest (List.replicate dim 0) D).length = num_mons D dim := by
  rw [mon_combosHighest_zero_spine dim D hdim, monsH_length]
  have hdd : dim - 1 + 1 = dim := by omega
  rw [hdd]

theorem block_mem (dim D : Nat) (hdim : 1 ≤ dim) {m : List Nat}
    (hm : m ∈ mon_combosHighest (List.replicate dim 0) D) :
    m.length = dim ∧ m.sum = D := by
  rw [mon_combosHighest_zero_spine dim D hdim, mem_monsH] at hm
  obtain ⟨h1, h2⟩ := hm
  constructor
  · rw [h1]; omega
  · exact h2

/-- Filtering the ordered list to the `x_i`-divisible monomials and dividing
by `x_i` reproduces the ordered list one degree lower, in order. -/
theorem mons_ordered_filter_dec (dim i : Nat) (hdim : 1 ≤ dim) (hi : i ≤ dim - 1) :
    ∀ D, ((mons_ordered dim (D + 1)).filter
        (fun m => decide (1 ≤ m.getD i 0))).map (decVar i) =
      mons_ordered dim D := by
  intro D
  induction D with
  | zero =>
      rw [mons_ordered_succ, mons_ordered_zero dim hdim, List.filter_append, List.map_append]
      have h0 : ([List.replicate dim 0].filter
          (fun m => decide (1 ≤ m.getD i 0))).map (decVar i) = [] := by
        simp [getD_replicate_zero]
      rw [h0, List.nil_append, mon_combosHighest_zero_spine dim 1 hdim,
        monsH_filter_dec (dim - 1) 1 i hi (by omega)]
      have h11 : (1 : Nat) - 1 = 0 := rfl
      rw [h11, monsH_zero_right]
      have hdd : dim - 1 + 1 = dim := by omega
      rw [hdd]
  | succ D ih =>
      rw [mons_ordered_succ dim (D + 1), List.filter_append, List.map_append, ih,
        mon_combosHighest_zero_spine dim (D + 2) hdim,
        monsH_filter_dec (dim - 1) (D + 2) i hi (by omega)]
      have h2 : D + 2 - 1 = D + 1 := by omega
      rw [h2, ← mon_combosHighest_zero_spine dim (D + 1) hdim, ← mons_ordered_succ]

theorem filtered_RL (dim D i : Nat) (hdim : 1 ≤ dim) (hi : i ≤ dim - 1) :
    (((mons_ordered dim (D + 1)).reverse).filter
        (fun m => decide (1 ≤ m.getD i 0))).map (decVar i) =
      (mons_ordered dim D).reverse := by
  rw [List.filter_reverse, List.map_reverse, mons_ordered_filter_dec dim i hdim hi D]

theorem npWhere_filter_length {α : Type _} (L : List α) (p : α → Bool) (d : α) :
    (npWhere (L.map p)).length = (L.filter p).length := by
  rw [← npWhere_map_getD L p d, List.length_map]

/-- The False positions of the divisibility mask are exactly as many as the
top-degree block: the non-divisible monomials are counted by the divisible
ones through the one-degree-down bijection. -/
theorem mask_false_count (dim D i : Nat) (hdim : 1 ≤ dim) (hi : i ≤ dim - 1) :
    (npWhereNot (((mons_ordered dim (D + 1)).reverse).map
        (fun m => decide (1 ≤ m.getD i 0)))).length = num_mons (D + 1) dim := by
  have hQ := whereNot_append_where_perm
    (((mons_ordered dim (D + 1)).reverse).map (fun m => decide (1 ≤ m.getD i 0)))
  have hsum := hQ.length_eq
  rw [List.length_append, List.length_range, List.length_map, List.length_reverse] at hsum
  have hT : (npWhere (((mons_ordered dim (D + 1)).reverse).map
      (fun m => decide (1 ≤ m.getD i 0)))).length =
      (mons_ordered dim D).length := by
    rw [npWhere_filter_length _ _ ([] : List Nat)]
    have := congrArg List.length (filtered_RL dim D i hdim hi)
    rw [List.length_map, List.length_reverse] at this
    rw [this]
  rw [hT] at hsum
  have hN : (mons_ordered dim (D + 1)).length =
      (mons_ordered dim D).length + num_mons (D + 1) dim := by
    rw [mons_ordered_succ, List.length_append, block_length dim (D + 1) hdim]
  omega

/-- Every permutation_array call made by the program returns a permutation
of 0..N-1 where N is the length of the ordered monomial list. -/
theorem permutation_array_perm (deg dim mon : Nat) (hdeg : 1 ≤ deg) (hdim : 1 ≤ dim)
    (hmon : mon ≤ dim - 1) :
    (permutation_array deg dim mon).Perm
      (List.range (mons_ordered dim deg).length) := by
  rw [permutation_array_concat deg dim mon hdeg hdim hmon,
    maskConcat_eq deg dim mon hdeg hdim hmon]
  have hQ := whereNot_append_where_perm
    (((mons_ordered dim deg).reverse).map
      (fun m => decide (1 ≤ m.getD (dim - 1 - mon) 0)))
  have hlenM : (((mons_ordered dim deg).reverse).map
      (fun m => decide (1 ≤ m.getD (dim - 1 - mon) 0))).length =
      (mons_ordered dim deg).length := by
    rw [List.length_map, List.length_reverse]
  rw [hlenM] at hQ
  have hQlen := hQ.length_eq
  rw [List.length_range] at hQlen
  have hQ' := hQ
  rw [← hQlen] at hQ'
  have h := inverse_P_perm hQ'
  rw [hQlen] at h
  exact h

theorem getD_map_lt {α β : Type _} (f : α → β) (l : List α) (n : Nat) (h : n < l.length)
    (da : α) (db : β) : (l.map f).getD n db = f (l.getD n da) := by
  rw [List.getD_eq_getElem _ _ (by simpa using h), List.getElem_map,
    List.getD_eq_getElem _ _ h]

set_option maxHeartbeats 1600000 in
/-- The permutation array acts as a gather map: at each target position j
of the reversed ordered list, the permuted row reads the source position t
with Q[t] = j, where Q is the stable partition putting the non-divisible
positions first; on rows supported below the top degree this is exactly
multiplication by the variable with tuple coordinate i. -/
theorem C2_permutation_array_multiplies (dim D i : Nat) (c : List Nat → ℚ)
    (hdim : 1 ≤ dim) (hD : 1 ≤ D) (hi : i < dim)
    (hc : ∀ m, m.length = dim → D ≤ m.sum → c m = 0) :
    (permutation_array D dim (dim - 1 - i)).map
        (fun k => (((mons_ordered dim D).reverse).map c).getD k 0) =
      ((mons_ordered dim D).reverse).map
        (fun m => if 1 ≤ m.getD i 0 then c (decVar i m) else 0) := by
  obtain ⟨D, rfl⟩ : ∃ d, D = d + 1 := ⟨D - 1, by omega⟩
  have hmon : dim - 1 - i ≤ dim - 1 := by omega
  have hidx : dim - 1 - (dim - 1 - i) = i := by omega
  have hmask := maskConcat_eq (D + 1) dim (dim - 1 - i) (by omega) hdim hmon
  rw [hidx] at hmask
  have hperm := permutation_array_concat (D + 1) dim (dim - 1 - i) (by omega) hdim hmon
  rw [hmask] at hperm
  rw [hperm]
  have hMlen : (((mons_ordered dim (D + 1)).reverse).map
      (fun m => decide (1 ≤ m.getD i 0))).length = (mons_ordered dim (D + 1)).length := by
    rw [List.length_map, List.length_reverse]
  have hQ := whereNot_append_where_perm
    (((mons_ordered dim (D + 1)).reverse).map (fun m => decide (1 ≤ m.getD i 0)))
  rw [hMlen] at hQ
  have hQlen2 : (npWhereNot (((mons_ordered dim (D + 1)).reverse).map
      (fun m => decide (1 ≤ m.getD i 0))) ++
      npWhere (((mons_ordered dim (D + 1)).reverse).map
      (fun m => decide (1 ≤ m.getD i 0)))).length = (mons_ordered dim (D + 1)).length := by
    have h1 := hQ.length_eq
    rw [List.length_range] at h1
    exact h1
  have hQnd : (npWhereNot (((mons_ordered dim (D + 1)).reverse).map
      (fun m => decide (1 ≤ m.getD i 0))) ++
      npWhere (((mons_ordered dim (D + 1)).reverse).map
      (fun m => decide (1 ≤ m.getD i 0)))).Nodup :=
    hQ.nodup_iff.mpr (List.nodup_range _)
  have hQvals : ∀ v ∈ (npWhereNot (((mons_ordered dim (D + 1)).reverse).map
      (fun m => decide (1 ≤ m.getD i 0))) ++
      npWhere (((mons_ordered dim (D + 1)).reverse).map
      (fun m => decide (1 ≤ m.getD i 0)))), v < (mons_ordered dim (D + 1)).length := by
    intro v hv
    have h1 := hQ.subset hv
    rw [List.mem_range] at h1
    exact h1
  apply List.ext_getElem
  · rw [List.length_map, inverse_P_length, hQlen2, List.length_map, List.length_reverse]
  intro j hj hj2
  rw [List.length_map, inverse_P_length, hQlen2] at hj
  rw [List.length_map, List.length_reverse] at hj2
  have hjQ : j ∈ (npWhereNot (((mons_ordered dim (D + 1)).reverse).map
      (fun m => decide (1 ≤ m.getD i 0))) ++
      npWhere (((mons_ordered dim (D + 1)).reverse).map
      (fun m => decide (1 ≤ m.getD i 0)))) :=
    hQ.mem_iff.mpr (List.mem_range.mpr hj)
  rw [List.mem_iff_getElem] at hjQ
  obtain ⟨t, ht, hQt⟩ := hjQ
  have htN : t < (mons_ordered dim (D + 1)).length := by
    rw [hQlen2] at ht
    exact ht
  have hjRL : j < ((mons_ordered dim (D + 1)).reverse).length := by
    rw [List.length_reverse]; exact hj
  have htRL : t < ((mons_ordered dim (D + 1)).reverse).length := by
    rw [List.length_reverse]; exact htN
  have hjP : j < (inverse_P (npWhereNot (((mons_ordered dim (D + 1)).reverse).map
      (fun m => decide (1 ≤ m.getD i 0))) ++
      npWhere (((mons_ordered dim (D + 1)).reverse).map
      (fun m => decide (1 ≤ m.getD i 0))))).length := by
    rw [inverse_P_length, hQlen2]
    exact hj
  have hPj : (inverse_P (npWhereNot (((mons_ordered dim (D + 1)).reverse).map
      (fun m => decide (1 ≤ m.getD i 0))) ++
      npWhere (((mons_ordered dim (D + 1)).reverse).map
      (fun m => decide (1 ≤ m.getD i 0)))))[j] = t := by
    have hspec := inverse_P_getD hQnd (by rw [hQlen2]; exact hQvals) t ht
    rw [hQt] at hspec
    rw [List.getD_eq_getElem _ _ hjP] at hspec
    exact hspec
  rw [List.getElem_map, hPj, List.getElem_map]
  have hvt : ((((mons_ordered dim (D + 1)).reverse).map c).getD t 0) =
      c (((mons_ordered dim (D + 1)).reverse).getD t []) :=
    getD_map_lt c _ t htRL [] 0
  rw [hvt]
  have hjg : ((mons_ordered dim (D + 1)).reverse)[j] =
      ((mons_ordered dim (D + 1)).reverse).getD j [] :=
    (List.getD_eq_getElem _ _ hjRL).symm
  rw [hjg]
  have hMj : (((mons_ordered dim (D + 1)).reverse).map
      (fun m => decide (1 ≤ m.getD i 0))).getD j false =
      decide (1 ≤ (((mons_ordered dim (D + 1)).reverse).getD j []).getD i 0) :=
    getD_map_lt (fun m => decide (1 ≤ m.getD i 0)) _ j hjRL [] false
  have hRLsplit : (mons_ordered dim (D + 1)).reverse =
      (mon_combosHighest (List.replicate dim 0) (D + 1)).reverse ++
        (mons_ordered dim D).reverse := by
    rw [mons_ordered_succ, List.reverse_append]
  have hblen : ((mon_combosHighest (List.replicate dim 0) (D + 1)).reverse).length =
      num_mons (D + 1) dim := by
    rw [List.length_reverse, block_length dim (D + 1) hdim]
  have hF := mask_false_count dim D i hdim (by omega)
  by_cases hcase : t < (npWhereNot (((mons_ordered dim (D + 1)).reverse).map
      (fun m => decide (1 ≤ m.getD i 0)))).length
  · -- non-divisible target: both sides are zero
    have hQt' : (npWhereNot (((mons_ordered dim (D + 1)).reverse).map
        (fun m => decide (1 ≤ m.getD i 0))))[t] = j := by
      rw [← hQt]
      exact (List.getElem_append_left hcase).symm
    have hjmem : j ∈ npWhereNot (((mons_ordered dim (D + 1)).reverse).map
        (fun m => decide (1 ≤ m.getD i 0))) := by
      rw [← hQt']
      exact List.getElem_mem hcase
    have hjfalse : ((((mons_ordered dim (D + 1)).reverse).map
        (fun m => decide (1 ≤ m.getD i 0))).getD j false) = false := by
      rw [npWhereNot, List.mem_filter] at hjmem
      have h1 := hjmem.2
      simpa using h1
    rw [hMj] at hjfalse
    have hjpred : ¬ (1 ≤ ((((mons_ordered dim (D + 1)).reverse).getD j []).getD i 0)) :=
      of_decide_eq_false hjfalse
    rw [if_neg hjpred]
    have htF : t < num_mons (D + 1) dim := by rw [← hF]; exact hcase
    have htb : t < ((mon_combosHighest (List.replicate dim 0) (D + 1)).reverse).length := by
      rw [hblen]; exact htF
    have hgt : ((mons_ordered dim (D + 1)).reverse).getD t [] =
        ((mon_combosHighest (List.replicate dim 0) (D + 1)).reverse).getD t [] := by
      rw [hRLsplit]
      exact List.getD_append _ _ [] t htb
    have hmem2 : ((mon_combosHighest (List.replicate dim 0) (D + 1)).reverse).getD t [] ∈
        mon_combosHighest (List.replicate dim 0) (D + 1) := by
      rw [List.getD_eq_getElem _ _ htb, ← List.mem_reverse]
      exact List.getElem_mem htb
    obtain ⟨hlen, hsum⟩ := block_mem dim (D + 1) hdim hmem2
    rw [hgt]
    exact hc _ hlen (by omega)
  · -- divisible target: the row entry moves down one degree in variable i
    have hFle : (npWhereNot (((mons_ordered dim (D + 1)).reverse).map
        (fun m => decide (1 ≤ m.getD i 0)))).length ≤ t := Nat.le_of_not_lt hcase
    have htr : t - (npWhereNot (((mons_ordered dim (D + 1)).reverse).map
        (fun m => decide (1 ≤ m.getD i 0)))).length <
        (npWhere (((mons_ordered dim (D + 1)).reverse).map
        (fun m => decide (1 ≤ m.getD i 0)))).length := by
      rw [List.length_append] at ht
      omega
    have hQtD : (npWhere (((mons_ordered dim (D + 1)).reverse).map
        (fun m => decide (1 ≤ m.getD i 0)))).getD
          (t - (npWhereNot (((mons_ordered dim (D + 1)).reverse).map
            (fun m => decide (1 ≤ m.getD i 0)))).length) 0 = j := by
      rw [List.getD_eq_getElem _ _ htr, ← hQt]
      exact (List.getElem_append_right hFle).symm
    have hjmem : j ∈ npWhere (((mons_ordered dim (D + 1)).reverse).map
        (fun m => decide (1 ≤ m.getD i 0))) := by
      rw [← hQtD, List.getD_eq_getElem _ _ htr]
      exact List.getElem_mem htr
    have hjtrue : ((((mons_ordered dim (D + 1)).reverse).map
        (fun m => decide (1 ≤ m.getD i 0))).getD j false) = true := by
      rw [npWhere, List.mem_filter] at hjmem
      exact hjmem.2
    rw [hMj] at hjtrue
    have hjpred : 1 ≤ ((((mons_ordered dim (D + 1)).reverse).getD j []).getD i 0) :=
      of_decide_eq_true hjtrue
    rw [if_pos hjpred]
    rw [hF] at htr hQtD
    have hfil := filtered_RL dim D i hdim (by omega)
    have hgather := npWhere_map_getD ((mons_ordered dim (D + 1)).reverse)
      (fun m => decide (1 ≤ m.getD i 0)) ([] : List Nat)
    have hlfil : (((mons_ordered dim (D + 1)).reverse).filter
        (fun m => decide (1 ≤ m.getD i 0))).length = (mons_ordered dim D).length := by
      have h1 := congrArg List.length hfil
      rw [List.length_map, List.length_reverse] at h1
      exact h1
    have hlwT : (npWhere (((mons_ordered dim (D + 1)).reverse).map
        (fun m => decide (1 ≤ m.getD i 0)))).length =
        (((mons_ordered dim (D + 1)).reverse).filter
          (fun m => decide (1 ≤ m.getD i 0))).length :=
      npWhere_filter_length _ _ ([] : List Nat)
    have hr2 : t - num_mons (D + 1) dim <
        (((mons_ordered dim (D + 1)).reverse).filter
          (fun m => decide (1 ≤ m.getD i 0))).length := by
      rw [← hlwT]
      exact htr
    have hble2 : num_mons (D + 1) dim ≤ t := by
      rw [← hF]
      exact hFle
    have c1 : ((mons_ordered dim (D + 1)).reverse).getD t [] =
        ((mons_ordered dim D).reverse).getD (t - num_mons (D + 1) dim) [] := by
      rw [hRLsplit, List.getD_append_right _ _ [] t (by rw [hblen]; exact hble2), hblen]
    have c2 : ((mons_ordered dim D).reverse).getD (t - num_mons (D + 1) dim) [] =
        decVar i ((((mons_ordered dim (D + 1)).reverse).filter
          (fun m => decide (1 ≤ m.getD i 0))).getD (t - num_mons (D + 1) dim) []) := by
      rw [← hfil]
      exact getD_map_lt (decVar i) _ _ hr2 [] []
    have c3 : (((mons_ordered dim (D + 1)).reverse).filter
        (fun m => decide (1 ≤ m.getD i 0))).getD (t - num_mons (D + 1) dim) [] =
        ((mons_ordered dim (D + 1)).reverse).getD j [] := by
      rw [← hgather]
      have hrT : t - num_mons (D + 1) dim <
          (npWhere (((mons_ordered dim (D + 1)).reverse).map
            (fun m => decide (1 ≤ m.getD i 0)))).length := htr
      rw [getD_map_lt (fun k => ((mons_ordered dim (D + 1)).reverse).getD k [])
        _ _ hrT 0 []]
      rw [hQtD]
    rw [c1, c2, c3]

/-! ### Association-list dictionaries -/

theorem hasKey_iff {V : Type _} (d : List (List Int × V)) (k : List Int) :
    hasKey d k = true ↔ ∃ kv ∈ d, kv.1 = k := by
  rw [hasKey, List.any_eq_true]
  simp only [decide_eq_true_eq]

theorem hasKey_dinsert {V : Type _} (d : List (List Int × V)) (k k' : List Int) (v : V) :
    hasKey (dinsert d k v) k' = true ↔ (hasKey d k' = true ∨ k' = k) := by
  rw [dinsert]
  by_cases h : hasKey d k
  · rw [if_pos h]
    rw [hasKey_iff, hasKey_iff]
    constructor
    · rintro ⟨kv, hkv, hk⟩
      rw [List.mem_map] at hkv
      obtain ⟨kv0, hkv0, rfl⟩ := hkv
      by_cases he : kv0.1 = k
      · rw [if_pos he] at hk
        exact Or.inr hk.symm
      · rw [if_neg he] at hk
        exact Or.inl ⟨kv0, hkv0, hk⟩
    · rintro (⟨kv, hkv, hk⟩ | rfl)
      · by_cases he : kv.1 = k
        · refine ⟨(k, v), List.mem_map.mpr ⟨kv, hkv, by rw [if_pos he]⟩, ?_⟩
          rw [← he, hk]
        · exact ⟨kv, List.mem_map.mpr ⟨kv, hkv, by rw [if_neg he]⟩, hk⟩
      · rw [hasKey_iff] at h
        obtain ⟨kv, hkv, hk⟩ := h
        exact ⟨(k', v), List.mem_map.mpr ⟨kv, hkv, by rw [if_pos hk]⟩, rfl⟩
  · rw [if_neg h]
    rw [hasKey_iff, hasKey_iff]
    constructor
    · rintro ⟨kv, hkv, hk⟩
      rw [List.mem_append] at hkv
      rcases hkv with hkv | hkv
      · exact Or.inl ⟨kv, hkv, hk⟩
      · rw [List.mem_singleton] at hkv
        subst hkv
        exact Or.inr hk.symm
    · rintro (⟨kv, hkv, hk⟩ | rfl)
      · exact ⟨kv, List.mem_append.mpr (Or.inl hkv), hk⟩
      · exact ⟨(k', v), List.mem_append.mpr (Or.inr (List.mem_singleton.mpr rfl)), rfl⟩

theorem dlookup_isSome {V : Type _} (d : List (List Int × V)) (k : List Int) :
    (dlookup d k).isSome = true ↔ hasKey d k = true := by
  rw [dlookup]
  have h1 : (Option.map (fun kv => kv.2) (d.find? (fun kv => decide (kv.1 = k)))).isSome =
      (d.find? (fun kv => decide (kv.1 = k))).isSome := by
    cases d.find? (fun kv => decide (kv.1 = k)) <;> rfl
  rw [h1, List.find?_isSome, hasKey, List.any_eq_true]

theorem dlookup_mem {V : Type _} {d : List (List Int × V)} {k : List Int} {v : V}
    (h : dlookup d k = some v) : (k, v) ∈ d := by
  rw [dlookup] at h
  rw [Option.map_eq_some'] at h
  obtain ⟨kv, hfind, hv⟩ := h
  have hmem := List.mem_of_find?_eq_some hfind
  have hpred := List.find?_some hfind
  rw [decide_eq_true_eq] at hpred
  have : kv = (k, v) := by
    cases kv
    simp only at hpred hv
    rw [hpred, hv]
  rw [← this]
  exact hmem

theorem dinsert_values {V : Type _} (P : V → Prop) (d : List (List Int × V))
    (k : List Int) (v : V) (hd : ∀ kv ∈ d, P kv.2) (hv : P v) :
    ∀ kv ∈ dinsert d k v, P kv.2 := by
  intro kv hkv
  rw [dinsert] at hkv
  by_cases h : hasKey d k
  · rw [if_pos h] at hkv
    rw [List.mem_map] at hkv
    obtain ⟨kv0, hkv0, rfl⟩ := hkv
    by_cases he : kv0.1 = k
    · rw [if_pos he]
      exact hv
    · rw [if_neg he]
      exact hd kv0 hkv0
  · rw [if_neg h] at hkv
    rw [List.mem_append] at hkv
    rcases hkv with hkv | hkv
    · exact hd kv hkv
    · rw [List.mem_singleton] at hkv
      subst hkv
      exact hv

theorem hasKey_foldl_dinsert {V : Type _} (f : Nat → List Int) (g : Nat → V) :
    ∀ (n : Nat) (d0 : List (List Int × V)) (key : List Int),
      hasKey ((List.range n).foldl (fun d i => dinsert d (f i) (g i)) d0) key = true ↔
        (hasKey d0 key = true ∨ ∃ i, i < n ∧ key = f i) := by
  intro n
  induction n with
  | zero =>
      intro d0 key
      simp
  | succ n ih =>
      intro d0 key
      rw [List.range_succ, List.foldl_append, List.foldl_cons, List.foldl_nil,
        hasKey_dinsert, ih]
      constructor
      · rintro ((h | ⟨i, hi, rfl⟩) | rfl)
        · exact Or.inl h
        · exact Or.inr ⟨i, by omega, rfl⟩
        · exact Or.inr ⟨n, by omega, rfl⟩
      · rintro (h | ⟨i, hi, rfl⟩)
        · exact Or.inl (Or.inl h)
        · by_cases hin : i = n
          · subst hin
            exact Or.inr rfl
          · exact Or.inl (Or.inr ⟨i, by omega, rfl⟩)

theorem foldl_dinsert_values {V : Type _} (P : V → Prop) (f : Nat → List Int) (g : Nat → V) :
    ∀ (n : Nat) (d0 : List (List Int × V)), (∀ kv ∈ d0, P kv.2) → (∀ i, i < n → P (g i)) →
      ∀ kv ∈ (List.range n).foldl (fun d i => dinsert d (f i) (g i)) d0, P kv.2 := by
  intro n
  induction n with
  | zero =>
      intro d0 h0 _ kv hkv
      exact h0 kv hkv
  | succ n ih =>
      intro d0 h0 hg kv hkv
      rw [List.range_succ, List.foldl_append, List.foldl_cons, List.foldl_nil] at hkv
      refine dinsert_values P _ _ _ ?_ (hg n (by omega)) kv hkv
      exact ih d0 h0 (fun i hi => hg i (by omega))

/-- Reading back an index array that is a permutation of 0..N-1 gathers the
whole source list. -/
theorem range_map_getD (A : List Nat) :
    (List.range A.length).map (fun k => A.getD k 0) = A := by
  apply List.ext_getElem
  · rw [List.length_map, List.length_range]
  intro j hj hj2
  rw [List.getElem_map, List.getElem_range]
  exact List.getD_eq_getElem A 0 hj2

theorem gather_perm {A B : List Nat} {N : Nat} (hA : A.Perm (List.range N))
    (hB : B.Perm (List.range N)) : (gather A B).Perm (List.range N) := by
  have hAlen : A.length = N := by
    have := hA.length_eq
    rw [List.length_range] at this
    exact this
  have h1 : (gather A B).Perm ((List.range N).map (fun k => A.getD k 0)) :=
    hB.map (fun k => A.getD k 0)
  rw [← hAlen] at h1
  rw [range_map_getD] at h1
  exact h1.trans hA

/-! ### The Chebyshev perturbation folds -/

theorem eq_replicate_of_sum_zero : ∀ m : List Nat, m.sum = 0 → m = List.replicate m.length 0
  | [], _ => rfl
  | x :: t, h => by
      rw [List.sum_cons] at h
      have hx : x = 0 := by omega
      have ht : t.sum = 0 := by omega
      rw [List.length_cons, List.replicate_succ, hx, eq_replicate_of_sum_zero t ht]
      rw [List.length_replicate]

theorem exists_unit_of_sum_one : ∀ m : List Nat, m.sum = 1 →
    ∃ i, i < m.length ∧ m = (List.replicate m.length 0).set i 1
  | [], h => by simp at h
  | x :: t, h => by
      rw [List.sum_cons] at h
      match x, h with
      | 0, h =>
          have ht : t.sum = 1 := by omega
          obtain ⟨i, hi, hrep⟩ := exists_unit_of_sum_one t ht
          refine ⟨i + 1, by simp only [List.length_cons]; omega, ?_⟩
          rw [List.length_cons, List.replicate_succ, List.set_cons_succ]
          rw [← hrep]
      | x + 1, h =>
          have hx : x = 0 := by omega
          have ht : t.sum = 0 := by omega
          subst hx
          refine ⟨0, by simp, ?_⟩
          rw [List.length_cons, List.replicate_succ, List.set_cons_zero]
          rw [eq_replicate_of_sum_zero t ht, List.length_replicate]

theorem exists_pos_coord : ∀ m : List Nat, 1 ≤ m.sum →
    ∃ i, i < m.length ∧ 1 ≤ m.getD i 0
  | [], h => by simp at h
  | x :: t, h => by
      match x with
      | 0 =>
          rw [List.sum_cons] at h
          obtain ⟨i, hi, hget⟩ := exists_pos_coord t (by omega)
          exact ⟨i + 1, by simp only [List.length_cons]; omega,
            by rw [List.getD_cons_succ]; exact hget⟩
      | x + 1 =>
          exact ⟨0, by simp, by rw [List.getD_cons_zero]; omega⟩

theorem sum_decVar : ∀ (m : List Nat) (i : Nat), i < m.length → 1 ≤ m.getD i 0 →
    (decVar i m).sum + 1 = m.sum
  | [], i, hi, _ => by simp at hi
  | x :: t, 0, _, hdiv => by
      rw [List.getD_cons_zero] at hdiv
      rw [decVar, List.getD_cons_zero, List.set_cons_zero, List.sum_cons, List.sum_cons]
      omega
  | x :: t, i + 1, hi, hdiv => by
      rw [List.getD_cons_succ] at hdiv
      rw [decVar, List.getD_cons_succ, List.set_cons_succ, List.sum_cons, List.sum_cons]
      have := sum_decVar t i (by simpa using hi) hdiv
      rw [decVar] at this
      omega

theorem length_decVar (m : List Nat) (i : Nat) : (decVar i m).length = m.length := by
  rw [decVar, List.length_set]

theorem subKey_zero_right : ∀ t : List Nat, subKey t (List.replicate t.length 0) = toKey t
  | [] => rfl
  | x :: t => by
      rw [List.length_cons, List.replicate_succ, subKey, List.zipWith_cons_cons]
      have h1 := subKey_zero_right t
      rw [subKey] at h1
      rw [h1]
      have hx : ((x : Int) - ((0 : Nat) : Int)) = Int.ofNat x := by
        simp only [Int.ofNat_eq_natCast]; omega
      exact congrArg (fun z => z :: List.map Int.ofNat t) hx

/-- The difference of a monomial and a unit tuple, as computed by
np.subtract, is the decremented monomial whenever the division is exact. -/
theorem subKey_set_one : ∀ (m : List Nat) (i : Nat), i < m.length → 1 ≤ m.getD i 0 →
    subKey m ((List.replicate m.length 0).set i 1) = toKey (decVar i m)
  | [], i, hi, _ => by simp at hi
  | x :: t, 0, _, hdiv => by
      rw [List.getD_cons_zero] at hdiv
      rw [List.length_cons, List.replicate_succ, List.set_cons_zero, subKey,
        List.zipWith_cons_cons, decVar, List.getD_cons_zero, List.set_cons_zero,
        toKey, List.map_cons]
      have h1 := subKey_zero_right t
      rw [subKey] at h1
      rw [h1]
      have hx : ((x : Int) - ((1 : Nat) : Int)) = Int.ofNat (x - 1) := by
        simp only [Int.ofNat_eq_natCast]; omega
      exact congrArg (fun z => z :: List.map Int.ofNat t) hx
  | x :: t, i + 1, hi, hdiv => by
      rw [List.getD_cons_succ] at hdiv
      rw [List.length_cons, List.replicate_succ, List.set_cons_succ, subKey,
        List.zipWith_cons_cons, decVar, List.getD_cons_succ, List.set_cons_succ,
        toKey, List.map_cons]
      have h1 := subKey_set_one t i (by simpa using hi) hdiv
      rw [subKey] at h1
      rw [h1, decVar]
      simp [toKey]

/-! ### Key completeness of all_permutations (C4) -/

theorem apInit_hasKey (dim D : Nat) (key : List Int) :
    hasKey (apInit dim D) key = true ↔
      key = toKey (List.replicate dim 0) ∨
        ∃ i, i < dim ∧ key = toKey ((List.replicate dim 0).set i 1) := by
  rw [apInit, hasKey_foldl_dinsert]
  constructor
  · rintro (h | h)
    · rw [hasKey_iff] at h
      obtain ⟨kv, hkv, hk⟩ := h
      rw [List.mem_singleton] at hkv
      subst hkv
      exact Or.inl hk.symm
    · exact Or.inr h
  · rintro (rfl | h)
    · refine Or.inl ?_
      rw [hasKey_iff]
      exact ⟨_, List.mem_singleton.mpr rfl, rfl⟩
    · exact Or.inr h

theorem apStep_hasKey_mono (dim : Nat) (perms : List (List Int × List Nat))
    (mon : List Nat) (key : List Int) (h : hasKey perms key = true) :
    hasKey (apStep dim perms mon) key = true := by
  rw [apStep]
  cases hfind : (get_var_list dim).find? (fun var => hasKey perms (subKey mon var)) with
  | none => exact h
  | some var => exact (hasKey_dinsert _ _ _ _).mpr (Or.inl h)

theorem foldl_apStep_hasKey_mono (dim : Nat) :
    ∀ (l : List (List Nat)) (perms : List (List Int × List Nat)) (key : List Int),
      hasKey perms key = true → hasKey (l.foldl (apStep dim) perms) key = true := by
  intro l
  induction l with
  | nil => intro perms key h; exact h
  | cons m l ih =>
      intro perms key h
      rw [List.foldl_cons]
      exact ih _ _ (apStep_hasKey_mono dim perms m key h)

theorem monomialList_zero (dim : Nat) : monomialList dim 0 = [] := rfl

theorem monomialList_one (dim : Nat) : monomialList dim 1 = [] := rfl

theorem monomialList_succ (dim deg : Nat) (hdeg : 2 ≤ deg) :
    monomialList dim deg =
      monomialList dim (deg - 1) ++ mon_combosHighest (List.replicate dim 0) deg := by
  obtain ⟨d, rfl⟩ : ∃ d, deg = d + 2 := ⟨deg - 2, by omega⟩
  rw [monomialList, monomialList]
  have h1 : d + 2 - 1 = d + 1 := by omega
  have h2 : d + 2 - 1 - 1 = d := by omega
  rw [h2, h1, List.range'_concat, List.flatMap_append, List.flatMap_cons, List.flatMap_nil,
    List.append_nil]
  have h3 : 2 + 1 * d = d + 2 := by omega
  rw [h3]

theorem all_permutations_succ (deg dim D : Nat) (hdeg : 2 ≤ deg) :
    all_permutations deg dim D =
      (mon_combosHighest (List.replicate dim 0) deg).foldl (apStep dim)
        (all_permutations (deg - 1) dim D) := by
  rw [all_permutations, all_permutations, monomialList_succ dim deg hdeg,
    List.foldl_append]

/-- When every one-smaller monomial is a key, the variable scan of apStep
finds a decomposition for any monomial of positive degree. -/
theorem apStep_find_success (dim : Nat) (perms : List (List Int × List Nat))
    (m : List Nat) (hlen : m.length = dim) (hsum : 1 ≤ m.sum)
    (hprev : ∀ m' : List Nat, m'.length = dim → m'.sum + 1 = m.sum →
      hasKey perms (toKey m') = true) :
    ((get_var_list dim).find? (fun var => hasKey perms (subKey m var))).isSome = true := by
  obtain ⟨i, hi, hdiv⟩ := exists_pos_coord m hsum
  rw [List.find?_isSome]
  refine ⟨(List.replicate dim 0).set i 1, ?_, ?_⟩
  · rw [get_var_list, List.mem_map]
    exact ⟨i, List.mem_range.mpr (by omega), rfl⟩
  · have hsub : subKey m ((List.replicate dim 0).set i 1) = toKey (decVar i m) := by
      rw [← hlen]
      exact subKey_set_one m i hi hdiv
    rw [hsub]
    exact hprev (decVar i m) (by rw [length_decVar, hlen])
      (sum_decVar m i hi hdiv)

theorem apStep_inserts (dim : Nat) (perms : List (List Int × List Nat)) (m : List Nat)
    (hfind : ((get_var_list dim).find? (fun var => hasKey perms (subKey m var))).isSome
      = true) : hasKey (apStep dim perms m) (toKey m) = true := by
  rw [apStep]
  cases hf : (get_var_list dim).find? (fun var => hasKey perms (subKey m var)) with
  | none => rw [hf] at hfind; exact Bool.noConfusion hfind
  | some var => exact (hasKey_dinsert _ _ _ _).mpr (Or.inr rfl)

theorem foldl_block_keys (dim d : Nat) (hd : 1 ≤ d) :
    ∀ (l : List (List Nat)) (perms : List (List Int × List Nat)),
      (∀ m ∈ l, m.length = dim ∧ m.sum = d) →
      (∀ m' : List Nat, m'.length = dim → m'.sum + 1 = d →
        hasKey perms (toKey m') = true) →
      ∀ key, (hasKey perms key = true ∨ ∃ m ∈ l, key = toKey m) →
        hasKey (l.foldl (apStep dim) perms) key = true := by
  intro l
  induction l with
  | nil =>
      rintro perms _ _ key (h | ⟨m, hm, -⟩)
      · exact h
      · simp at hm
  | cons m l ih =>
      intro perms hml hprev key hkey
      obtain ⟨hmlen, hmsum⟩ := hml m (by simp)
      have hfind := apStep_find_success dim perms m hmlen (by omega)
        (fun m' h1 h2 => hprev m' h1 (by omega))
      have hins := apStep_inserts dim perms m hfind
      rw [List.foldl_cons]
      have hprev1 : ∀ m' : List Nat, m'.length = dim → m'.sum + 1 = d →
          hasKey (apStep dim perms m) (toKey m') = true :=
        fun m' h1 h2 => apStep_hasKey_mono dim perms m _ (hprev m' h1 h2)
      refine ih (apStep dim perms m) (fun x hx => hml x (by simp [hx])) hprev1 key ?_
      rcases hkey with h | ⟨x, hx, rfl⟩
      · exact Or.inl (apStep_hasKey_mono dim perms m key h)
      · rcases List.mem_cons.mp hx with rfl | hx
        · exact Or.inl hins
        · exact Or.inr ⟨x, hx, rfl⟩

theorem block_complete (dim D : Nat) (hdim : 1 ≤ dim) (m : List Nat)
    (hlen : m.length = dim) (hsum : m.sum = D) :
    m ∈ mon_combosHighest (List.replicate dim 0) D := by
  rw [mon_combosHighest_zero_spine dim D hdim, mem_monsH]
  constructor
  · omega
  · exact hsum

theorem all_permutations_keys_complete (dim D : Nat) (hdim : 1 ≤ dim) :
    ∀ deg, ∀ m : List Nat, m.length = dim → (m.sum ≤ deg ∨ m.sum ≤ 1) →
      hasKey (all_permutations deg dim D) (toKey m) = true := by
  have hinit : ∀ m : List Nat, m.length = dim → m.sum ≤ 1 →
      hasKey (apInit dim D) (toKey m) = true := by
    intro m hlen hsum
    rw [apInit_hasKey]
    by_cases h0 : m.sum = 0
    · refine Or.inl ?_
      rw [eq_replicate_of_sum_zero m h0, hlen]
    · have h1 : m.sum = 1 := by omega
      obtain ⟨i, hi, hrep⟩ := exists_unit_of_sum_one m h1
      refine Or.inr ⟨i, by omega, ?_⟩
      rw [← hlen, ← hrep]
  intro deg
  induction deg with
  | zero =>
      intro m hlen hsum
      have h1 : m.sum ≤ 1 := by omega
      rw [all_permutations, monomialList_zero, List.foldl_nil]
      exact hinit m hlen h1
  | succ deg ih =>
      intro m hlen hsum
      by_cases hdeg2 : deg = 0
      · subst hdeg2
        have h1 : m.sum ≤ 1 := by omega
        rw [all_permutations, monomialList_one, List.foldl_nil]
        exact hinit m hlen h1
      · rw [all_permutations_succ (deg + 1) dim D (by omega)]
        have hstep : deg + 1 - 1 = deg := by omega
        rw [hstep]
        by_cases hms : m.sum ≤ deg ∨ m.sum ≤ 1
        · exact foldl_apStep_hasKey_mono dim _ _ _ (ih m hlen hms)
        · have hsum2 : m.sum = deg + 1 := by omega
          refine foldl_block_keys dim (deg + 1) (by omega) _ _
            (fun x hx => block_mem dim (deg + 1) hdim hx)
            (fun m' h1 h2 => ih m' h1 (Or.inl (by omega))) _ ?_
          exact Or.inr ⟨m, block_complete dim (deg + 1) hdim m hlen hsum2, rfl⟩

/-- C4: in a fresh call `all_permutations(deg, dim, matrixDegree)` with
`dim ≥ 1` and `2 ≤ deg ≤ matrixDegree`, the silent-skip branch is never taken:
when the `j`-th monomial of the degree-`d` block is processed, the variable
scan `find?` succeeds on the memo state accumulated so far (every lower-degree
monomial is already a key), and consequently the returned dictionary has an
entry for every exponent tuple of length `dim` and total degree at most
`deg`. -/
theorem C4_fresh_no_skip (deg dim D : Nat) (hdim : 1 ≤ dim) (hdeg : 2 ≤ deg)
    (hD : deg ≤ D) :
    (∀ d, 2 ≤ d → d ≤ deg →
      ∀ j, j < (mon_combosHighest (List.replicate dim 0) d).length →
      ((get_var_list dim).find? (fun var =>
          hasKey (((mon_combosHighest (List.replicate dim 0) d).take j).foldl
              (apStep dim) (all_permutations (d - 1) dim D))
            (subKey ((mon_combosHighest (List.replicate dim 0) d).getD j []) var))).isSome
        = true) ∧
    (∀ m : List Nat, m.length = dim → m.sum ≤ deg →
      hasKey (all_permutations deg dim D) (toKey m) = true) := by
  constructor
  · intro d hd2 hdle j hj
    have hmem : (mon_combosHighest (List.replicate dim 0) d).getD j [] ∈
        mon_combosHighest (List.replicate dim 0) d := by
      rw [List.getD_eq_getElem _ [] hj]
      exact List.getElem_mem hj
    obtain ⟨hlen, hsum⟩ := block_mem dim d hdim hmem
    refine apStep_find_success dim _ _ hlen (by omega) ?_
    intro m' h1 h2
    refine foldl_apStep_hasKey_mono dim _ _ _ ?_
    exact all_permutations_keys_complete dim D hdim (d - 1) m' h1 (Or.inl (by omega))
  · intro m hlen hsum
    exact all_permutations_keys_complete dim D hdim deg m hlen (Or.inl hsum)

theorem C4_fresh_no_skip_witness :
    ((∀ d, 2 ≤ d → d ≤ 2 →
      ∀ j, j < (mon_combosHighest (List.replicate 2 0) d).length →
      ((get_var_list 2).find? (fun var =>
          hasKey (((mon_combosHighest (List.replicate 2 0) d).take j).foldl
              (apStep 2) (all_permutations (d - 1) 2 2))
            (subKey ((mon_combosHighest (List.replicate 2 0) d).getD j []) var))).isSome
        = true) ∧
    (∀ m : List Nat, m.length = 2 → m.sum ≤ 2 →
      hasKey (all_permutations 2 2 2) (toKey m) = true)) ∧
    hasKey (all_permutations 2 2 2) (toKey [1, 1]) = true := by
  have h := C4_fresh_no_skip 2 2 2 (by omega) (by omega) (by omega)
  exact ⟨h, h.2 [1, 1] (by simp) (by simp)⟩

/-! ### Bijectivity of the stored arrays (C3) -/

theorem apInit_values (dim D : Nat) (hdim : 1 ≤ dim) (hD : 1 ≤ D) :
    ∀ kv ∈ apInit dim D,
      kv.2.Perm
        (List.range (((List.range (D + 1)).map (fun k => num_mons k dim)).sum)) := by
  rw [apInit]
  refine foldl_dinsert_values
    (fun v => v.Perm
      (List.range (((List.range (D + 1)).map (fun k => num_mons k dim)).sum)))
    (fun i => toKey ((List.replicate dim 0).set i 1))
    (fun i => permutation_array D dim (dim - 1 - i)) dim _ ?_ ?_
  · intro kv hkv
    rw [List.mem_singleton] at hkv
    subst hkv
    exact List.Perm.refl _
  · intro i hi
    have h := permutation_array_perm D dim (dim - 1 - i) hD hdim (by omega)
    rwa [mons_ordered_length dim D hdim] at h

theorem foldl_apStep_values (dim N : Nat) :
    ∀ (l : List (List Nat)) (perms : List (List Int × List Nat)),
      (∀ kv ∈ perms, kv.2.Perm (List.range N)) →
      (∀ i, i < dim → hasKey perms (toKey ((List.replicate dim 0).set i 1)) = true) →
      ∀ kv ∈ l.foldl (apStep dim) perms, kv.2.Perm (List.range N) := by
  intro l
  induction l with
  | nil => intro perms hv _ kv hkv; exact hv kv hkv
  | cons m l ih =>
      intro perms hv hu
      rw [List.foldl_cons]
      refine ih (apStep dim perms m) ?_
        (fun i hi => apStep_hasKey_mono dim perms m _ (hu i hi))
      rw [apStep]
      cases hfind : (get_var_list dim).find? (fun var => hasKey perms (subKey m var)) with
      | none => exact hv
      | some var =>
          have hvar_mem := List.mem_of_find?_eq_some hfind
          have hvar_pred := List.find?_some hfind
          rw [get_var_list, List.mem_map] at hvar_mem
          obtain ⟨i, hi, rfl⟩ := hvar_mem
          have hkey1 : hasKey perms (toKey ((List.replicate dim 0).set i 1)) = true :=
            hu i (List.mem_range.mp hi)
          have h1 := (dlookup_isSome perms (toKey ((List.replicate dim 0).set i 1))).mpr hkey1
          have h2 := (dlookup_isSome perms
            (subKey m ((List.replicate dim 0).set i 1))).mpr (by simpa using hvar_pred)
          obtain ⟨v1, hv1⟩ := Option.isSome_iff_exists.mp h1
          obtain ⟨v2, hv2⟩ := Option.isSome_iff_exists.mp h2
          have hp1 : v1.Perm (List.range N) := hv _ (dlookup_mem hv1)
          have hp2 : v2.Perm (List.range N) := hv _ (dlookup_mem hv2)
          show ∀ kv ∈ dinsert perms (toKey m)
              (gather ((dlookup perms (toKey ((List.replicate dim 0).set i 1))).getD [])
                ((dlookup perms (subKey m ((List.replicate dim 0).set i 1))).getD [])),
            kv.2.Perm (List.range N)
          rw [hv1, hv2, Option.getD_some, Option.getD_some]
          exact dinsert_values (fun v => v.Perm (List.range N)) perms (toKey m)
            (gather v1 v2) hv (gather_perm hp1 hp2)

/-- C3: for every dim ≥ 1, matrixDegree ≥ 1 and variable code mon < dim,
permutation_array(matrixDegree, dim, mon) is a permutation of [0, N), with
N = Σ_(k=0..matrixDegree) num_mons(k, dim); and every value of the dictionary
returned by a fresh all_permutations(deg, dim, matrixDegree) is likewise a
permutation of [0, N). -/
theorem C3_permutation_bijections (dim D deg : Nat) (hdim : 1 ≤ dim) (hD : 1 ≤ D) :
    (∀ mon, mon < dim →
      (permutation_array D dim mon).Perm
        (List.range (((List.range (D + 1)).map (fun k => num_mons k dim)).sum))) ∧
    (∀ kv ∈ all_permutations deg dim D,
      kv.2.Perm
        (List.range (((List.range (D + 1)).map (fun k => num_mons k dim)).sum))) := by
  constructor
  · intro mon hmon
    have h := permutation_array_perm D dim mon hD hdim (by omega)
    rwa [mons_ordered_length dim D hdim] at h
  · rw [all_permutations]
    refine foldl_apStep_values dim _ _ _ (apInit_values dim D hdim hD) ?_
    intro i hi
    exact (apInit_hasKey dim D _).mpr (Or.inr ⟨i, hi, rfl⟩)

theorem C3_permutation_bijections_witness :
    (∀ mon, mon < 2 →
      (permutation_array 2 2 mon).Perm
        (List.range (((List.range (2 + 1)).map (fun k => num_mons k 2)).sum))) ∧
    (∀ kv ∈ all_permutations 2 2 2,
      kv.2.Perm
        (List.range (((List.range (2 + 1)).map (fun k => num_mons k 2)).sum))) :=
  C3_permutation_bijections 2 2 2 (by omega) (by omega)

/-! ### The key set of all_permutations_cheb (C1) -/

theorem getD_set_self (l : List Nat) (i a : Nat) (h : i < l.length) :
    (l.set i a).getD i 0 = a := by
  rw [List.getD_eq_getElem _ 0 (by rw [List.length_set]; exact h)]
  simp

theorem range_split (i n : Nat) (h : i < n) :
    List.range n = List.range i ++ List.range' i (n - i) := by
  rw [List.range_eq_range', List.range_eq_range']
  have h1 := List.range'_append 0 i (n - i) 1
  simp at h1
  rw [h1]
  congr 1
  omega

theorem hasKey_foldl_iff {V A : Type _}
    (step : List (List Int × V) → A → List (List Int × V)) (F : A → List Int)
    (hstep : ∀ d a key, hasKey (step d a) key = true ↔
      (hasKey d key = true ∨ key = F a)) :
    ∀ (l : List A) (d0 : List (List Int × V)) (key : List Int),
      hasKey (l.foldl step d0) key = true ↔
        (hasKey d0 key = true ∨ ∃ a ∈ l, key = F a) := by
  intro l
  induction l with
  | nil => intro d0 key; simp
  | cons a l ih =>
      intro d0 key
      rw [List.foldl_cons, ih, hstep]
      constructor
      · rintro ((h | h) | ⟨b, hb, rfl⟩)
        · exact Or.inl h
        · exact Or.inr ⟨a, by simp, h⟩
        · exact Or.inr ⟨b, by simp [hb], rfl⟩
      · rintro (h | ⟨b, hb, rfl⟩)
        · exact Or.inl (Or.inl h)
        · rcases List.mem_cons.mp hb with rfl | hb
          · exact Or.inl (Or.inr rfl)
          · exact Or.inr ⟨b, hb, rfl⟩

theorem hasKey_foldl_upper {V A : Type _}
    (step : List (List Int × V) → A → List (List Int × V))
    (Q : A → List Int → Prop)
    (hstep : ∀ d a key, hasKey (step d a) key = true →
      hasKey d key = true ∨ Q a key) :
    ∀ (l : List A) (d0 : List (List Int × V)) (key : List Int),
      hasKey (l.foldl step d0) key = true →
        hasKey d0 key = true ∨ ∃ a ∈ l, Q a key := by
  intro l
  induction l with
  | nil => intro d0 key h; exact Or.inl h
  | cons a l ih =>
      intro d0 key h
      rw [List.foldl_cons] at h
      rcases ih (step d0 a) key h with h1 | ⟨b, hb, hq⟩
      · rcases hstep d0 a key h1 with h2 | hq
        · exact Or.inl h2
        · exact Or.inr ⟨a, by simp, hq⟩
      · exact Or.inr ⟨b, by simp [hb], hq⟩

theorem hasKey_foldl_mono {V A : Type _}
    (step : List (List Int × V) → A → List (List Int × V))
    (hstep : ∀ d a key, hasKey d key = true → hasKey (step d a) key = true) :
    ∀ (l : List A) (d0 : List (List Int × V)) (key : List Int),
      hasKey d0 key = true → hasKey (l.foldl step d0) key = true := by
  intro l
  induction l with
  | nil => intro d0 key h; exact h
  | cons a l ih =>
      intro d0 key h
      rw [List.foldl_cons]
      exact ih (step d0 a) key (hstep d0 a key h)

theorem hasKey_chebSingle (dim D : Nat)
    (d : List (List Int × (List Nat × List Nat × List Nat))) (i : Nat)
    (key : List Int) :
    hasKey (chebSingle dim D d i) key = true ↔
      (hasKey d key = true ∨ key = toKey ((List.replicate dim 0).set i 1)) := by
  simp only [chebSingle]
  exact hasKey_dinsert _ _ _ _

theorem hasKey_chebPow_upper (dim D i : Nat) (mons2 : List (List Nat))
    (md : List (List Int × Nat))
    (d2 : List (List Int × (List Nat × List Nat × List Nat))) (c : List Nat)
    (key : List Int)
    (h : hasKey (chebPow dim D i mons2 md d2 c) key = true) :
    hasKey d2 key = true ∨ key = toKey c := by
  simp only [chebPow] at h
  split_ifs at h with hg
  · exact (hasKey_dinsert _ _ _ _).mp h
  · exact Or.inl h

theorem hasKey_chebPow_mono (dim D i : Nat) (mons2 : List (List Nat))
    (md : List (List Int × Nat))
    (d2 : List (List Int × (List Nat × List Nat × List Nat))) (c : List Nat)
    (key : List Int) (h : hasKey d2 key = true) :
    hasKey (chebPow dim D i mons2 md d2 c) key = true := by
  simp only [chebPow]
  split_ifs with hg
  · exact (hasKey_dinsert _ _ _ _).mpr (Or.inl h)
  · exact h

theorem chebPow_key (dim D i : Nat) (mons2 : List (List Nat))
    (md : List (List Int × Nat))
    (d2 : List (List Int × (List Nat × List Nat × List Nat))) (c : List Nat)
    (hg : hasKey d2 (subKey c ((List.replicate dim 0).set i 1)) = true) :
    hasKey (chebPow dim D i mons2 md d2 c) (toKey c) = true := by
  simp only [chebPow]
  rw [if_pos hg]
  exact (hasKey_dinsert _ _ _ _).mpr (Or.inr rfl)

/-- `np.subtract(x_i^s, x_i)` is the pure power `x_i^(s-1)`. -/
theorem subKey_pow (dim i s : Nat) (hi : i < dim) (hs : 1 ≤ s) :
    subKey ((List.replicate dim 0).set i s) ((List.replicate dim 0).set i 1) =
      toKey ((List.replicate dim 0).set i (s - 1)) := by
  have hlen : ((List.replicate dim 0).set i s).length = dim := by
    rw [List.length_set, List.length_replicate]
  have h1 : ((List.replicate dim 0).set i s).getD i 0 = s :=
    getD_set_self _ i s (by rw [List.length_replicate]; exact hi)
  have h2 := subKey_set_one ((List.replicate dim 0).set i s) i
    (by rw [hlen]; exact hi) (by rw [h1]; exact hs)
  rw [hlen] at h2
  rw [h2, decVar, h1, List.set_set]

/-- Along the pure-power loop for variable `i`, once `x_i^s` is a key, every
power `x_i^k` for `s ≤ k ≤ s + t` becomes (or stays) a key after folding
chebPow over the powers `s+1 .. s+t`. -/
theorem chebPow_powers (dim D i : Nat) (hi : i < dim) (mons2 : List (List Nat))
    (md : List (List Int × Nat)) :
    ∀ (t s : Nat) (d2 : List (List Int × (List Nat × List Nat × List Nat))),
      1 ≤ s →
      hasKey d2 (toKey ((List.replicate dim 0).set i s)) = true →
      ∀ k, s ≤ k → k < s + 1 + t →
        hasKey
          (((List.range' (s + 1) t).map
              (fun j => (List.replicate dim 0).set i j)).foldl
            (chebPow dim D i mons2 md) d2)
          (toKey ((List.replicate dim 0).set i k)) = true := by
  intro t
  induction t with
  | zero =>
      intro s d2 hs hd k hk1 hk2
      have hks : k = s := by omega
      subst hks
      simpa using hd
  | succ t ih =>
      intro s d2 hs hd k hk1 hk2
      rw [List.range'_succ, List.map_cons, List.foldl_cons]
      have hguard : hasKey d2 (subKey ((List.replicate dim 0).set i (s + 1))
          ((List.replicate dim 0).set i 1)) = true := by
        rw [subKey_pow dim i (s + 1) hi (by omega)]
        have hs1 : s + 1 - 1 = s := by omega
        rw [hs1]
        exact hd
      by_cases hks : k ≤ s
      · have hk : k = s := by omega
        subst hk
        refine hasKey_foldl_mono (chebPow dim D i mons2 md)
          (fun d a key => hasKey_chebPow_mono dim D i mons2 md d a key) _ _ _ ?_
        exact hasKey_chebPow_mono dim D i mons2 md d2 _ _ hd
      · refine ih (s + 1)
          (chebPow dim D i mons2 md d2 ((List.replicate dim 0).set i (s + 1)))
          (by omega) ?_ k (by omega) (by omega)
        exact chebPow_key dim D i mons2 md d2 _ hguard

/-- all_permutations_cheb unfolded to its two explicit folds. -/
theorem acb_eq (deg dim D : Nat) :
    all_permutations_cheb deg dim D =
      (List.range dim).foldl
        (fun d i => (mons_1D dim deg i).foldl
          (chebPow dim D i (mons_ordered dim (D - 1)) (chebMonDict dim D)) d)
        ((List.range dim).foldl (chebSingle dim D) []) := rfl

/-- The exact key set of all_permutations_cheb: the pure powers `x_i^k` for
`i < dim` and `1 ≤ k ≤ deg`, and nothing else (in particular no mixed
monomial). -/
theorem cheb_hasKey_iff (deg dim D : Nat) (hdim : 1 ≤ dim) (hdeg : 1 ≤ deg)
    (key : List Int) :
    hasKey (all_permutations_cheb deg dim D) key = true ↔
      ∃ i, i < dim ∧ ∃ k, 1 ≤ k ∧ k ≤ deg ∧
        key = toKey ((List.replicate dim 0).set i k) := by
  rw [acb_eq]
  have hbase : ∀ key : List Int,
      hasKey ((List.range dim).foldl (chebSingle dim D) []) key = true ↔
        ∃ i ∈ List.range dim, key = toKey ((List.replicate dim 0).set i 1) := by
    intro key
    rw [hasKey_foldl_iff (chebSingle dim D)
      (fun i => toKey ((List.replicate dim 0).set i 1))
      (hasKey_chebSingle dim D) (List.range dim) [] key]
    constructor
    · rintro (hf | h)
      · rw [hasKey] at hf
        simp at hf
      · exact h
    · exact Or.inr
  constructor
  · intro h
    have hstepU : ∀ (d : List (List Int × (List Nat × List Nat × List Nat)))
        (j : Nat) (key : List Int),
        hasKey ((mons_1D dim deg j).foldl
          (chebPow dim D j (mons_ordered dim (D - 1)) (chebMonDict dim D)) d) key
          = true →
        hasKey d key = true ∨ ∃ c ∈ mons_1D dim deg j, key = toKey c :=
      fun d j key hk =>
        hasKey_foldl_upper
          (chebPow dim D j (mons_ordered dim (D - 1)) (chebMonDict dim D))
          (fun c key => key = toKey c)
          (fun d' c key' hk' => hasKey_chebPow_upper dim D j
            (mons_ordered dim (D - 1)) (chebMonDict dim D) d' c key' hk')
          (mons_1D dim deg j) d key hk
    rcases hasKey_foldl_upper
        (fun d i => (mons_1D dim deg i).foldl
          (chebPow dim D i (mons_ordered dim (D - 1)) (chebMonDict dim D)) d)
        (fun j key => ∃ c ∈ mons_1D dim deg j, key = toKey c)
        hstepU (List.range dim) _ key h with hb | ⟨j, hj, c, hc, rfl⟩
    · obtain ⟨i, hi, rfl⟩ := (hbase key).mp hb
      exact ⟨i, List.mem_range.mp hi, 1, le_refl 1, hdeg, rfl⟩
    · rw [mons_1D, List.mem_map] at hc
      obtain ⟨k, hk, rfl⟩ := hc
      rw [List.mem_range'_1] at hk
      exact ⟨j, List.mem_range.mp hj, k, by omega, by omega, rfl⟩
  · rintro ⟨i, hi, k, hk1, hk2, rfl⟩
    have hmono : ∀ (d : List (List Int × (List Nat × List Nat × List Nat)))
        (a : Nat) (key : List Int), hasKey d key = true →
        hasKey ((mons_1D dim deg a).foldl
          (chebPow dim D a (mons_ordered dim (D - 1)) (chebMonDict dim D)) d) key
          = true :=
      fun d a key hk =>
        hasKey_foldl_mono
          (chebPow dim D a (mons_ordered dim (D - 1)) (chebMonDict dim D))
          (fun d' c key' => hasKey_chebPow_mono dim D a
            (mons_ordered dim (D - 1)) (chebMonDict dim D) d' c key')
          (mons_1D dim deg a) d key hk
    have hBK : hasKey ((List.range dim).foldl (chebSingle dim D) [])
        (toKey ((List.replicate dim 0).set i 1)) = true :=
      (hbase _).mpr ⟨i, List.mem_range.mpr hi, rfl⟩
    generalize hB : (List.range dim).foldl (chebSingle dim D) [] = base at hBK ⊢
    rw [range_split i dim hi, List.foldl_append]
    have hsplit2 : dim - i = (dim - i - 1) + 1 := by omega
    rw [hsplit2, List.range'_succ, List.foldl_cons]
    have hbase_i : hasKey
        ((List.range i).foldl
          (fun d j => (mons_1D dim deg j).foldl
            (chebPow dim D j (mons_ordered dim (D - 1)) (chebMonDict dim D)) d)
          base)
        (toKey ((List.replicate dim 0).set i 1)) = true :=
      hasKey_foldl_mono _ hmono _ _ _ hBK
    refine hasKey_foldl_mono _ hmono _ _ _ ?_
    show hasKey ((mons_1D dim deg i).foldl
      (chebPow dim D i (mons_ordered dim (D - 1)) (chebMonDict dim D)) _) _ = true
    rw [mons_1D]
    exact chebPow_powers dim D i hi (mons_ordered dim (D - 1)) (chebMonDict dim D)
      (deg - 1) 1 _ (by omega) hbase_i k hk1 (by omega)

/-- C1 (corrected): for dim ≥ 2, deg ≥ 2 and matrixDegree ≥ deg, the
dictionary returned by all_permutations_cheb(deg, dim, matrixDegree) has an
entry exactly for the pure powers `x_i^k` with `i < dim` and `1 ≤ k ≤ deg`;
mixed monomials such as x0*x1 are never keys, contrary to the claim. -/
theorem C1_cheb_keys_pure_powers_only (deg dim D : Nat) (hdim : 2 ≤ dim)
    (hdeg : 2 ≤ deg) (hD : deg ≤ D) (key : List Int) :
    hasKey (all_permutations_cheb deg dim D) key = true ↔
      ∃ i, i < dim ∧ ∃ k, 1 ≤ k ∧ k ≤ deg ∧
        key = toKey ((List.replicate dim 0).set i k) :=
  cheb_hasKey_iff deg dim D (by omega) (by omega) key

theorem C1_cheb_keys_pure_powers_only_witness :
    hasKey (all_permutations_cheb 2 2 2) (toKey [0, 2]) = true ↔
      ∃ i, i < 2 ∧ ∃ k, 1 ≤ k ∧ k ≤ 2 ∧
        toKey [0, 2] = toKey ((List.replicate 2 0).set i k) :=
  C1_cheb_keys_pure_powers_only 2 2 2 (by omega) (by omega) (by omega) (toKey [0, 2])

theorem C2_permutation_array_multiplies_witness :
    (permutation_array 2 1 (1 - 1 - 0)).map
        (fun k => (((mons_ordered 1 2).reverse).map
          (fun m => if m = [0] then (1 : ℚ) else 0)).getD k 0) =
      ((mons_ordered 1 2).reverse).map
        (fun m => if 1 ≤ m.getD 0 0
          then (if decVar 0 m = [0] then (1 : ℚ) else 0) else 0) :=
  C2_permutation_array_multiplies 1 2 0 (fun m => if m = [0] then (1 : ℚ) else 0)
    (by omega) (by omega) (by omega)
    (by
      intro m hlen hsum
      by_cases hm : m = [0]
      · subst hm
        simp at hsum
      · show (if m = [0] then (1 : ℚ) else 0) = 0
        rw [if_neg hm])

/-- The claim's ascending indexing fails: with dim = 1, matrixDegree = 2 and
the polynomial p = x (total degree 1 < 2, so its coefficient function
vanishes from degree 2 on, the claim's side condition), permuting the
coefficient row indexed by the ordered monomial list in emission order by
permutation_array(2, 1, 0) does not give the row of x*p in that same
indexing; the stored arrays act on rows indexed by the reverse of the
ordered monomial list. -/
theorem C2_permutation_array_counterexample :
    (∀ m : List Nat, m.length = 1 → 2 ≤ m.sum →
      (if m = [1] then (1 : ℚ) else 0) = 0) ∧
    ¬ ((permutation_array 2 1 0).map
          (fun k => ((mons_ordered 1 2).map
            (fun m => if m = [1] then (1 : ℚ) else 0)).getD k 0) =
        (mons_ordered 1 2).map
          (fun m => if 1 ≤ m.getD 0 0
            then (if decVar 0 m = [1] then (1 : ℚ) else 0) else 0)) := by
  constructor
  · intro m hlen hsum
    by_cases hm : m = [1]
    · subst hm
      simp at hsum
    · rw [if_neg hm]
  · intro hEq
    have hmons : mons_ordered 1 2 = [[0], [1], [2]] := by
      rw [mons_ordered]
      rw [show List.range (2 + 1) = [0, 1, 2] from rfl]
      rw [List.flatMap_cons, List.flatMap_cons, List.flatMap_cons, List.flatMap_nil]
      rw [mon_combosHighest_zero_spine 1 0 (by omega),
        mon_combosHighest_zero_spine 1 1 (by omega),
        mon_combosHighest_zero_spine 1 2 (by omega)]
      rfl
    have hP : permutation_array 2 1 0 = [1, 2, 0] := by
      rw [permutation_array_concat 2 1 0 (by omega) (by omega) (by omega),
        maskConcat_eq 2 1 0 (by omega) (by omega) (by omega), hmons]
      rfl
    rw [hmons, hP] at hEq
    simp [decVar] at hEq

/-- The original claim fails: the mixed monomial x0*x1 has total degree 2 ≤
deg, yet it is not a key of all_permutations_cheb(2, 2, 2). -/
theorem C1_cheb_keys_counterexample :
    hasKey (all_permutations_cheb 2 2 2) (toKey [1, 1]) = false := by
  cases hval : hasKey (all_permutations_cheb 2 2 2) (toKey [1, 1]) with
  | false => rfl
  | true =>
      obtain ⟨i, hi, k, hk1, hk2, heq⟩ :=
        (cheb_hasKey_iff 2 2 2 (by omega) (by omega) (toKey [1, 1])).mp hval
      interval_cases i
      · simp [toKey, List.replicate] at heq
      · simp [toKey, List.replicate] at heq

end ChebUtils
